import Mathlib

/-
Verification development for the "version" version-control system
(src/refs.js and src/version/index.js).

The repository state is embedded shallowly:
  * the `.version` directory is a finite map from file names
    ("HEAD", "FETCH_HEAD", "MERGE_HEAD", "MERGE_MSG", "refs/heads/<b>",
    "refs/remotes/<r>/<b>") to file contents,
  * the object store is a finite map from hash strings to decoded objects,
  * the index is a finite map from (path, stage) to blob hashes,
  * the working copy is a finite map from paths to file contents,
  * the config is the `bare` flag plus the remote-name -> url table.

Operations are embedded as functions producing a list of effect events
together with an `Except`-style result; the post-state of an operation is
obtained by replaying its events, which also lets us reason about the order
in which effects are applied.  An operation that throws mid-way returns the
events it performed before throwing (matching the JS behaviour, where a
throw keeps already-performed filesystem writes).

Modules of the repository that are not under src/ (objects, index, merge
helpers, files, config, diff, util) are modelled from the spec; each such
definition carries a doc comment starting "Modelled from the spec:".
-/

set_option maxRecDepth 100000
set_option maxHeartbeats 2000000

namespace VersionVC

/-- Modelled from the spec: the object model of §3.  A store object is a
blob (opaque bytes), a tree (ordered entries, each a (kind, name, hash)
triple with kind ∈ {blob, tree}), or a commit (tree hash, ordered parent
hashes, message). -/
inductive Obj where
  | blob (content : String)
  | tree (entries : List (String × String × String))
  | commit (treeH : String) (parents : List String) (msg : String)
deriving DecidableEq, Repr

/-- Modelled from the spec: canonical serialization — a stable deterministic
encoding of an object (§6). -/
def serializeObj : Obj → String
  | .blob c => "blob\n" ++ c
  | .tree es =>
      "tree\n" ++ String.intercalate "\n"
        (es.map (fun e => e.1 ++ " " ++ e.2.2 ++ " " ++ e.2.1))
  | .commit t ps m =>
      "commit " ++ t ++ "\n" ++
      String.intercalate "\n" (ps.map (fun p => "parent " ++ p)) ++
      "\n\n" ++ m

/-- Modelled from the spec: the content-address digest (the source's hash
utility is not under src/).  A fixed-width deterministic digest of the
canonical bytes, rendered as a decimal numeral, so two objects with
identical canonical bytes share a hash (§3). -/
def strDigest (s : String) : Nat :=
  s.data.foldl (fun n c => (n * 131 + c.toNat + 1) % 18446744073709551616) 5381

/-- Hash of an object: digest of its canonical serialization. -/
def hashObj (o : Obj) : String := (strDigest (serializeObj o)).repr

/-- First-binding lookup in an association list. -/
def lookupS {α β : Type} [DecidableEq α] : List (α × β) → α → Option β
  | [], _ => none
  | kv :: rest, k => if kv.1 = k then some kv.2 else lookupS rest k

/-- Insert-or-replace in an association list (replaces the first binding). -/
def setKV {α β : Type} [DecidableEq α] : List (α × β) → α → β → List (α × β)
  | [], k, v => [(k, v)]
  | kv :: rest, k, v => if kv.1 = k then (k, v) :: rest else kv :: setKV rest k v

/-- A single repository: the `.version` files, the object store, the index,
the working copy, and the config (bare flag and remote table). -/
structure Repo where
  files : List (String × String)
  objects : List (String × Obj)
  idx : List ((String × Nat) × String)
  wc : List (String × String)
  bare : Bool
  remotes : List (String × String)
deriving DecidableEq, Repr

/-- A world: the local repository plus the peer repositories reachable at
their urls (the spec's abstract peer handles, §4.7). -/
structure World where
  loc : Repo
  peers : List (String × Repo)
deriving DecidableEq, Repr

/- ------------------------------------------------------------------ -/
/- String-level parsing helpers (list-of-characters level).            -/
/- ------------------------------------------------------------------ -/

/-- Characters allowed in branch and remote names: `[A-Za-z-]`
(src/refs.js isRef). -/
def validChar (c : Char) : Bool :=
  ('A' ≤ c && c ≤ 'Z') || ('a' ≤ c && c ≤ 'z') || c = '-'

/-- A valid `<name>` is a nonempty run of `[A-Za-z-]` characters. -/
def validNameL (l : List Char) : Bool := !l.isEmpty && l.all validChar

/-- Matches `[A-Za-z-]+/[A-Za-z-]+` (the tail of a remote-tracking ref). -/
def remPartL (l : List Char) : Bool :=
  let a := l.takeWhile (fun c => c ≠ '/')
  validNameL a && decide (a.length < l.length) && validNameL (l.drop (a.length + 1))

/-- src/refs.js isRef: true iff the argument matches
`^refs/heads/[A-Za-z-]+$`, `^refs/remotes/[A-Za-z-]+/[A-Za-z-]+$`, or is
one of HEAD, FETCH_HEAD, MERGE_HEAD. -/
def isRefStr (ref : String) : Bool :=
  (("refs/heads/".data).isPrefixOf ref.data && validNameL (ref.data.drop 11)) ||
  (("refs/remotes/".data).isPrefixOf ref.data && remPartL (ref.data.drop 13)) ||
  ref = "HEAD" || ref = "FETCH_HEAD" || ref = "MERGE_HEAD"

/-- Does `pat` occur as a contiguous sublist of `l` starting at some
position ≥ 1?  This is JS `l.match("^.+" + pat)` (with `pat` literal):
at least one character, then the pattern, then anything. -/
def occursFromOne (pat : List Char) : List Char → Bool
  | [] => false
  | _ :: rest => pat.isPrefixOf rest || occursFromOne pat rest

/-- Does `pat` occur as a contiguous sublist of `l` (any position)?
This is JS `l.match(pat)` for a literal pattern. -/
def occursAny (pat l : List Char) : Bool :=
  pat.isPrefixOf l || occursFromOne pat l

/-- Split a character list at a separator character (JS `str.split(sep)`
for a one-character separator). -/
def splitCh (sep : Char) : List Char → List (List Char)
  | [] => [[]]
  | c :: rest =>
      if c = sep then [] :: splitCh sep rest
      else match splitCh sep rest with
        | [] => [[c]]
        | l :: ls => (c :: l) :: ls

/-- JS `str.split("\n").filter(l => l !== "")` (util.lines, modelled from
the spec's FETCH_HEAD record layout: one record per line). -/
def linesOf (s : String) : List (List Char) :=
  (splitCh '\n' s.data).filter (fun l => !l.isEmpty)

/-- First capture of JS `l.match("^([^ ]+) ")`, totalised: the leading run
of non-space characters.  (The JS regex throws on a line with no leading
word; such lines cannot reach this point on well-formed FETCH_HEAD files.) -/
def firstWordL (l : List Char) : List Char := l.takeWhile (fun c => c ≠ ' ')

/-- Leftmost regex-style capture: at the first position where `pat` occurs
and is followed by at least one non-newline character, return the maximal
non-newline run after `pat` (JS `s.match(pat ++ "(.+)")[1]`). -/
def captureAfter (pat : List Char) : List Char → Option (List Char)
  | [] => none
  | c :: rest =>
      if pat.isPrefixOf (c :: rest) then
        let cap := ((c :: rest).drop pat.length).takeWhile (fun x => x ≠ '\n')
        if cap.isEmpty then captureAfter pat rest else some cap
      else captureAfter pat rest

/-- Leftmost capture of JS `s.match("ref: (refs/heads/.+)")[1]`: the
capture includes the `refs/heads/` prefix and at least one further
non-newline character. -/
def captureHeadRef : List Char → Option (List Char)
  | [] => none
  | c :: rest =>
      if ("ref: refs/heads/".data).isPrefixOf (c :: rest) then
        let cap := ((c :: rest).drop 5).takeWhile (fun x => x ≠ '\n')
        if cap.length ≤ 11 then captureHeadRef rest else some cap
      else captureHeadRef rest

/- ------------------------------------------------------------------ -/
/- The refs layer (src/refs.js).                                       -/
/- ------------------------------------------------------------------ -/

/-- Modelled from the spec: files.read — returns the content of a
`.version` file, none when absent. -/
def filesRead (r : Repo) (name : String) : Option String := lookupS r.files name

/-- Content of the HEAD file.  HEAD always exists after init (§3);
absent HEAD is totalised to the empty string. -/
def headFile (r : Repo) : String := (filesRead r "HEAD").getD ""

/-- src/refs.js isHeadDetached: HEAD is detached iff its content does not
contain the substring "refs". -/
def isHeadDetached (r : Repo) : Bool := !occursAny ("refs".data) (headFile r).data

/-- src/refs.js headBranchName: the first capture of
`HEAD.match("refs/heads/(.+)")` when HEAD is attached, none when detached. -/
def headBranchName (r : Repo) : Option String :=
  if isHeadDetached r then none
  else (captureAfter ("refs/heads/".data) (headFile r).data).map List.asString

/-- src/refs.js terminalRef: resolve "HEAD" (attached) through its
`ref: refs/heads/<b>` content; keep a qualified ref; otherwise qualify an
unqualified branch name as `refs/heads/<name>`.  (The JS code throws when
attached HEAD does not match `ref: (refs/heads/.+)`; that state is
unreachable and totalised to "".) -/
def terminalRef (r : Repo) (ref : String) : String :=
  if ref = "HEAD" && !isHeadDetached r then
    ((captureHeadRef (headFile r).data).map List.asString).getD ""
  else if isRefStr ref then ref
  else "refs/heads/" ++ ref

/-- Modelled from the spec: objects.exists — whether the store has an
object under this hash. -/
def objectsExists (r : Repo) (h : String) : Bool := (lookupS r.objects h).isSome

/-- Modelled from the spec: objects.exists applied to a possibly-absent
hash (JS `objects.exists(undefined)` is false). -/
def objectsExistsO (r : Repo) : Option String → Bool
  | none => false
  | some h => objectsExists r h

/-- src/refs.js exists: a qualified ref exists iff its name passes ref
syntax and its file is present. -/
def refsExists (r : Repo) (ref : String) : Bool :=
  isRefStr ref && (filesRead r ref).isSome

/-- src/refs.js fetchHeadBranchToMerge: filter the FETCH_HEAD lines by the
regex `^.+ branch <branchName> of`, take the first word of the first
matching line (none when no line matches). -/
def fetchHeadBranchToMerge (content branchName : String) : Option String :=
  let pat := (" branch " ++ branchName ++ " of").data
  (((linesOf content).filter (occursFromOne pat)).head?).map
    (fun l => (firstWordL l).asString)

/-- src/refs.js hash: an existing object hash is returned as-is; otherwise
the terminal ref is resolved — FETCH_HEAD through the per-branch record for
the current branch name, any other existing ref through its stored content,
and a missing ref gives none.  (JS interpolates `undefined` for the branch
name when HEAD is detached; we keep that coercion.) -/
def refsHash (r : Repo) (refOrHash : String) : Option String :=
  if objectsExists r refOrHash then some refOrHash
  else
    let t := terminalRef r refOrHash
    if t = "FETCH_HEAD" then
      (filesRead r "FETCH_HEAD").bind
        (fun content => fetchHeadBranchToMerge content ((headBranchName r).getD "undefined"))
    else if refsExists r t then filesRead r t
    else none

/-- src/refs.js toLocalRef. -/
def toLocalRef (name : String) : String := "refs/heads/" ++ name

/-- src/refs.js toRemoteRef. -/
def toRemoteRef (remote name : String) : String :=
  "refs/remotes/" ++ remote ++ "/" ++ name

/-- src/refs.js isCheckedOut: the repo is not bare and HEAD points at
`branch`. -/
def isCheckedOut (r : Repo) (branch : String) : Bool :=
  !r.bare && headBranchName r = some branch

/-- Modelled from the spec: a merge is in progress iff the MERGE_HEAD
record is present (§3 lifecycles). -/
def isMergeInProgress (r : Repo) : Bool := refsExists r "MERGE_HEAD"

/-- src/refs.js commitParentHashes: `[HEAD, MERGE_HEAD]` when merging,
`[]` when HEAD resolves to nothing, else `[HEAD]`.  Entries keep the JS
array shape (a slot can be an absent hash). -/
def commitParentHashes (r : Repo) : List (Option String) :=
  let headHash := refsHash r "HEAD"
  if isMergeInProgress r then [headHash, refsHash r "MERGE_HEAD"]
  else if headHash.isNone then []
  else [headHash]

/- ------------------------------------------------------------------ -/
/- The index layer.  Modelled from the spec (§4.3); the index module is  -/
/- not under src/.                                                      -/
/- ------------------------------------------------------------------ -/

/-- Modelled from the spec: index.hasFile — an entry for (path, stage) is
present. -/
def idxHasFile (r : Repo) (path : String) (stage : Nat) : Bool :=
  (lookupS r.idx (path, stage)).isSome

/-- Modelled from the spec: index.isFileInConflict — some stage in 1..3 is
present for the path. -/
def idxIsFileInConflict (r : Repo) (path : String) : Bool :=
  r.idx.any (fun kv => kv.1.1 = path && (kv.1.2 = 1 || kv.1.2 = 2 || kv.1.2 = 3))

/-- Keep-first deduplication. -/
def dedupAux (seen : List String) : List String → List String
  | [] => []
  | s :: rest =>
      if seen.contains s then dedupAux seen rest
      else s :: dedupAux (s :: seen) rest

/-- Modelled from the spec: index.conflictedPaths — the paths with a stage
in 1..3. -/
def conflictedPaths (r : Repo) : List String :=
  dedupAux []
    ((r.idx.filter
        (fun kv => kv.1.2 = 1 || kv.1.2 = 2 || kv.1.2 = 3)).map (fun kv => kv.1.1))

/-- Modelled from the spec: index.toc — projection of the stage-0 entries
to a flat path → blob-hash mapping. -/
def tocOf (r : Repo) : List (String × String) :=
  (r.idx.filter (fun kv => kv.1.2 = 0)).map (fun kv => (kv.1.1, kv.2))

/- ------------------------------------------------------------------ -/
/- Effect events and replay.                                           -/
/- ------------------------------------------------------------------ -/

/-- Which repository an effect targets: the local one, or the peer at a
url. -/
inductive Tgt where
  | loc
  | rem (url : String)
deriving DecidableEq, Repr

/-- A primitive state effect: an object-store write, a `.version` file
write or removal, an index mutation, or a working-copy write or removal. -/
inductive Act where
  | objW (o : Obj)
  | fileW (name content : String)
  | fileRm (name : String)
  | idxNC (path h : String)
  | idxRmAll (path : String)
  | idxPut (path : String) (stage : Nat) (h : String)
  | idxReplace (entries : List ((String × Nat) × String))
  | wcW (path content : String)
  | wcRm (path : String)
deriving DecidableEq, Repr

/-- An event: an effect applied to a target repository. -/
structure Ev where
  tgt : Tgt
  act : Act
deriving DecidableEq, Repr

/-- Apply one effect to one repository.  `objW` stores the object under its
content hash; `idxNC` is the spec's write_non_conflict (store stage 0,
clear stages 1..3); `idxRmAll` is write_rm (remove every stage). -/
def applyAct (r : Repo) : Act → Repo
  | .objW o => { r with objects := setKV r.objects (hashObj o) o }
  | .fileW name content => { r with files := setKV r.files name content }
  | .fileRm name => { r with files := r.files.filter (fun kv => kv.1 ≠ name) }
  | .idxNC path h =>
      { r with idx := setKV (r.idx.filter (fun kv => !(kv.1.1 = path && kv.1.2 ≠ 0)))
                        (path, 0) h }
  | .idxRmAll path => { r with idx := r.idx.filter (fun kv => kv.1.1 ≠ path) }
  | .idxPut path stage h => { r with idx := setKV r.idx (path, stage) h }
  | .idxReplace entries => { r with idx := entries }
  | .wcW path content => { r with wc := setKV r.wc path content }
  | .wcRm path => { r with wc := r.wc.filter (fun kv => kv.1 ≠ path) }

/-- Apply one event to the world. -/
def applyEv (w : World) (e : Ev) : World :=
  match e.tgt with
  | .loc => { w with loc := applyAct w.loc e.act }
  | .rem url =>
      match lookupS w.peers url with
      | some p => { w with peers := setKV w.peers url (applyAct p e.act) }
      | none => w

/-- Replay a list of events. -/
def applyEvs (w : World) (es : List Ev) : World := es.foldl applyEv w

/-- The repository an effect target denotes (the local repo, or the peer
at the url — peers are checked for existence before being targeted). -/
def repoAt (w : World) : Tgt → Repo
  | .loc => w.loc
  | .rem url => (lookupS w.peers url).getD w.loc

/-- src/refs.js write: set the ref's file content, silently ignoring a name
that fails ref syntax.  (nodePath.normalize is the identity on every name
that passes ref syntax.) -/
def refsWriteEv (t : Tgt) (name content : String) : List Ev :=
  if isRefStr name then [⟨t, .fileW name content⟩] else []

/-- src/refs.js rm: remove the ref's file, guarded by ref syntax. -/
def refsRmEv (t : Tgt) (name : String) : List Ev :=
  if isRefStr name then [⟨t, .fileRm name⟩] else []

/- ------------------------------------------------------------------ -/
/- The object store and commit graph.  Modelled from the spec          -/
/- (§4.1, §4.5); the objects module is not under src/.                 -/
/- ------------------------------------------------------------------ -/

/-- Modelled from the spec: objects.type. -/
def objType : Obj → String
  | .blob _ => "blob"
  | .tree _ => "tree"
  | .commit _ _ _ => "commit"

/-- objects.type(objects.read(h)) as used by the source: none when the
object is absent. -/
def objTypeOfRead (r : Repo) (h : String) : Option String :=
  (lookupS r.objects h).map objType

/-- Modelled from the spec: objects.treeHash — the tree hash of a commit
object, none for any other (or absent) object. -/
def objTreeHashO (r : Repo) : Option String → Option String
  | none => none
  | some h =>
      match lookupS r.objects h with
      | some (.commit t _ _) => some t
      | _ => none

/-- Parent hashes of the commit stored under `h` ([] when absent or not a
commit). -/
def parentsOf (store : List (String × Obj)) (h : String) : List String :=
  match lookupS store h with
  | some (.commit _ ps _) => ps
  | _ => []

/-- Modelled from the spec: ancestors — transitive closure following parent
links (§4.5), with the defensively bounded recursion the spec asks for
(§9): the store size bounds every acyclic parent chain. -/
def ancestorsFuel (store : List (String × Obj)) : Nat → String → List String
  | 0, _ => []
  | n + 1, h =>
      let ps := parentsOf store h
      ps ++ (ps.map (ancestorsFuel store n)).flatten

/-- Modelled from the spec: ancestors with the full fuel budget. -/
def ancestors (store : List (String × Obj)) (h : String) : List String :=
  ancestorsFuel store (store.length + 1) h

/-- Modelled from the spec: is_ancestor(a, b) — a appears in ancestors(b). -/
def isAncestorB (store : List (String × Obj)) (a b : String) : Bool :=
  (ancestors store b).contains a

/-- Modelled from the spec: is_up_to_date(receiver, giver) — true iff
receiver == giver or is_ancestor(giver, receiver); when giver is none,
also true (§4.5). -/
def isUpToDate (store : List (String × Obj)) (receiver giver : Option String) : Bool :=
  giver.isNone || receiver = giver ||
    (match receiver, giver with
     | some rc, some g => isAncestorB store g rc
     | _, _ => false)

/-- Modelled from the spec: can_fast_forward(receiver, giver) — true iff
receiver is none (no commits yet) or is_ancestor(receiver, giver) (§4.6). -/
def canFastForward (store : List (String × Obj)) (receiver giver : Option String) : Bool :=
  receiver.isNone ||
    (match receiver, giver with
     | some rc, some g => isAncestorB store rc g
     | _, _ => false)

/-- Modelled from the spec: is_a_force_fetch(old, new) — true iff old is
defined and is_ancestor(old, new) is false (§4.6). -/
def isAForceFetch (store : List (String × Obj)) (old : Option String) (nw : String) : Bool :=
  match old with
  | none => false
  | some o => !isAncestorB store o nw

/-- Walk a tree object, producing the flat path → blob-hash mapping of its
leaves, with fuel bounding the (content-addressing-acyclic) recursion. -/
def treeTocFuel (store : List (String × Obj)) : Nat → String → String → List (String × String)
  | 0, _, _ => []
  | n + 1, pre, th =>
      match lookupS store th with
      | some (.tree es) =>
          (es.map (fun e =>
            if e.1 = "tree" then treeTocFuel store n (pre ++ e.2.1 ++ "/") e.2.2
            else [(pre ++ e.2.1, e.2.2)])).flatten
      | _ => []

/-- Modelled from the spec: commit_toc — the flat path → blob-hash mapping
obtained by recursively walking the tree referenced by the commit (§4.1). -/
def commitToc (store : List (String × Obj)) (h : String) : List (String × String) :=
  match lookupS store h with
  | some (.commit t _ _) => treeTocFuel store (store.length + 1) "" t
  | _ => []

/-- Content of the blob stored under `h` ("" when absent or not a blob). -/
def blobContent (store : List (String × Obj)) (h : String) : String :=
  match lookupS store h with
  | some (.blob c) => c
  | _ => ""

/- ------------------------------------------------------------------ -/
/- Tree writing (files.nestFlatTree + objects.writeTree).              -/
/- Modelled from the spec (§4.1): write_tree recursively writes         -/
/- sub-trees and returns the root hash.                                -/
/- ------------------------------------------------------------------ -/

/-- A nested table of contents: a leaf is a blob hash, a node maps path
segments to sub-tables. -/
inductive TocT where
  | blobRef (h : String)
  | sub (entries : List (String × TocT))
deriving Repr

/-- Modelled from the spec: files.nestFlatTree — group flat slash-separated
paths by leading segment into a nested table of contents.  Fuel bounds the
recursion by the total number of path segments. -/
def nestFuel : Nat → List (List String × String) → List (String × TocT)
  | 0, _ => []
  | fuel + 1, entries =>
      let firsts := dedupAux [] (entries.map (fun e => e.1.headD ""))
      firsts.map (fun s =>
        match entries.find? (fun e => e.1 = [s]) with
        | some e => (s, .blobRef e.2)
        | none =>
            (s, .sub (nestFuel fuel (entries.filterMap (fun e =>
                 match e.1 with
                 | seg :: tl => if seg = s && !tl.isEmpty then some (tl, e.2) else none
                 | [] => none)))))

/-- A path split at its slashes. -/
def pathSegs (p : String) : List String :=
  (splitCh '/' p.data).map List.asString

/-- Nest a flat path → blob-hash table of contents. -/
def nestFlatTree (toc : List (String × String)) : List (String × TocT) :=
  let entries := toc.map (fun pe => (pathSegs pe.1, pe.2))
  nestFuel ((entries.map (fun e => e.1.length)).sum + 1) entries

/-- Modelled from the spec: objects.writeTree — write the tree object of
every sub-table, then the enclosing tree object; returns the object-write
events and the entry list (kind, name, hash) of the enclosing tree.  Fuel
defensively bounds the recursion; write_treeEv passes enough fuel for
every table built from a repository index. -/
def wtListF (t : Tgt) : Nat → List (String × TocT) → (List Ev × List (String × String × String))
  | 0, _ => ([], [])
  | _ + 1, [] => ([], [])
  | fuel + 1, (n, .blobRef h) :: rest =>
      let pr := wtListF t fuel rest
      (pr.1, ("blob", n, h) :: pr.2)
  | fuel + 1, (n, .sub inner) :: rest =>
      let pr1 := wtListF t fuel inner
      let treeObj := Obj.tree pr1.2
      let pr2 := wtListF t fuel rest
      (pr1.1 ++ [⟨t, .objW treeObj⟩] ++ pr2.1, ("tree", n, hashObj treeObj) :: pr2.2)

/-- src/version/index.js write_tree:
`objects.writeTree(files.nestFlatTree(index.toc()))` — the events writing
every tree object (leaves first) and the root tree hash. -/
def write_treeEv (t : Tgt) (r : Repo) : List Ev × String :=
  let flat := tocOf r
  let fuel := (flat.map (fun pe => (pathSegs pe.1).length + 1)).sum + 1
  let pr := wtListF t fuel (nestFlatTree flat)
  let root := Obj.tree pr.2
  (pr.1 ++ [⟨t, .objW root⟩], hashObj root)

/-- Results of the operations are compared decidably. -/
instance : DecidableEq (Except String String) := fun a b =>
  match a, b with
  | .error x, .error y => if h : x = y then isTrue (by rw [h]) else isFalse (by
      intro hc; exact h (Except.error.inj hc))
  | .ok x, .ok y => if h : x = y then isTrue (by rw [h]) else isFalse (by
      intro hc; exact h (Except.ok.inj hc))
  | .error _, .ok _ => isFalse (by intro hc; exact Except.noConfusion hc)
  | .ok _, .error _ => isFalse (by intro hc; exact Except.noConfusion hc)

/- ------------------------------------------------------------------ -/
/- update_ref (src/version/index.js lines 695-721).                    -/
/- ------------------------------------------------------------------ -/

/-- src/version/index.js update_ref: resolve the target to a hash; fail
with "not a valid SHA1" when the hash does not denote an existing object;
fail with "cannot lock the ref" when the ref to update fails ref syntax;
fail with "cannot refer to non-commit object" when the object is not a
commit; otherwise write the hash to the terminal form of the ref. -/
def update_refOp (w : World) (t : Tgt) (refToUpdate refToUpdateTo : String) :
    List Ev × Except String String :=
  let r := repoAt w t
  let hashO := refsHash r refToUpdateTo
  if !objectsExistsO r hashO then
    ([], .error (refToUpdateTo ++ " not a valid SHA1"))
  else if !isRefStr refToUpdate then
    ([], .error ("cannot lock the ref " ++ refToUpdate))
  else
    let h := hashO.getD ""
    if objTypeOfRead r h ≠ some "commit" then
      ([], .error (terminalRef r refToUpdate ++ " cannot refer to non-commit object " ++ h ++ "\n"))
    else
      (refsWriteEv t (terminalRef r refToUpdate) h, .ok "")

/- ------------------------------------------------------------------ -/
/- update_index (src/version/index.js lines 643-686).                  -/
/- ------------------------------------------------------------------ -/

/-- A working-copy path names an existing file. -/
def wcFileExists (r : Repo) (path : String) : Bool := (lookupS r.wc path).isSome

/-- A working-copy path names an existing directory (a proper prefix of
some stored file path). -/
def wcDirExists (r : Repo) (path : String) : Bool :=
  r.wc.any (fun kv => ((path ++ "/").data).isPrefixOf kv.1.data)

/-- fs.existsSync on the working copy. -/
def wcExists (r : Repo) (path : String) : Bool :=
  wcFileExists r path || wcDirExists r path

/-- fs.statSync(path).isDirectory() on the working copy. -/
def wcIsDirectory (r : Repo) (path : String) : Bool :=
  !wcFileExists r path && wcDirExists r path

/-- src/version/index.js update_index: the case analysis over
(on-disk, in-index-at-stage-0, add/remove options).  Paths are modelled
repo-root-relative, so files.pathFromRepoRoot is the identity.  The final
JS fall-through (no branch taken) is unreachable — the branches cover all
cases — and is totalised to an empty return. -/
def update_indexOp (w : World) (path : String) (addF removeF : Bool) :
    List Ev × Except String String :=
  let r := w.loc
  if r.bare then ([], .error "this operation must be run in a work tree")
  else
    let isOnDisk := wcExists r path
    let isInIndex := idxHasFile r path 0
    if isOnDisk && wcIsDirectory r path then
      ([], .error (path ++ " is a directory - add files inside\n"))
    else if removeF && !isOnDisk && isInIndex then
      if idxIsFileInConflict r path then ([], .error "unsupported")
      else ([⟨.loc, .idxRmAll path⟩], .ok "\n")
    else if removeF && !isOnDisk && !isInIndex then ([], .ok "\n")
    else if !addF && isOnDisk && !isInIndex then
      ([], .error ("cannot add " ++ path ++ " to index - use --add option\n"))
    else if isOnDisk && (addF || isInIndex) then
      let content := (lookupS r.wc path).getD ""
      ([⟨.loc, .objW (.blob content)⟩, ⟨.loc, .idxNC path (hashObj (.blob content))⟩],
       .ok "\n")
    else if !removeF && !isOnDisk then
      ([], .error (path ++ " does not exist and --remove not passed\n"))
    else ([], .ok "")

/- ------------------------------------------------------------------ -/
/- commit (src/version/index.js lines 188-245).                        -/
/- ------------------------------------------------------------------ -/

/-- JS `array.join("\n")`. -/
def joinNL : List String → String
  | [] => ""
  | [s] => s
  | s :: rest => s ++ "\n" ++ joinNL rest

/-- The branch description used in commit messages: "detached HEAD" when
detached, else the current branch name. -/
def headDesc (r : Repo) : String :=
  if isHeadDetached r then "detached HEAD" else (headBranchName r).getD "undefined"

/-- The nothing-to-commit error message of src/version/index.js commit. -/
def nothingMsg (r : Repo) : String :=
  "# On " ++ (headDesc r ++ "\nnothing to commit, working directory clean")

/-- The unmerged-files error message of src/version/index.js commit. -/
def unmergedMsg (r : Repo) : String :=
  joinNL ((conflictedPaths r).map (fun p => "U " ++ p)) ++
    "\ncannot commit because you have unmerged files\n"

/-- The commit message: the pre-written MERGE_MSG when merging, else the
message passed with -m (JS coerces an absent message to "undefined"). -/
def commitMsgOf (r : Repo) (mOpt : Option String) : String :=
  if isMergeInProgress r then (filesRead r "MERGE_MSG").getD "undefined"
  else mOpt.getD "undefined"

/-- The commit object written by commit: the tree written from the index,
the parents from commitParentHashes, and the message. -/
def commitObjOf (r : Repo) (mOpt : Option String) : Obj :=
  Obj.commit (write_treeEv Tgt.loc r).2
    ((commitParentHashes r).map (fun p => p.getD "undefined")) (commitMsgOf r mOpt)

/-- src/version/index.js commit: write the index as a tree; error when the
written tree hash equals the HEAD commit's tree hash; error when merging
with unresolved conflicts; otherwise write the commit object, point HEAD at
it via update_ref, and close a merge in progress. -/
def commitOp (w : World) (mOpt : Option String) : List Ev × Except String String :=
  let r := w.loc
  if r.bare then ([], .error "this operation must be run in a work tree")
  else if (refsHash r "HEAD").isSome &&
      objTreeHashO r (refsHash r "HEAD") = some (write_treeEv Tgt.loc r).2 then
    ((write_treeEv Tgt.loc r).1, .error (nothingMsg r))
  else if isMergeInProgress r && !(conflictedPaths r).isEmpty then
    ((write_treeEv Tgt.loc r).1, .error (unmergedMsg r))
  else
    let cObj := commitObjOf r mOpt
    let trC := (write_treeEv Tgt.loc r).1 ++ [⟨.loc, .objW cObj⟩]
    let pr := update_refOp (applyEvs w trC) .loc "HEAD" (hashObj cObj)
    match pr.2 with
    | .error e => (trC ++ pr.1, .error e)
    | .ok _ =>
        if isMergeInProgress (applyEvs w (trC ++ pr.1)).loc then
          (trC ++ pr.1 ++ [⟨.loc, .fileRm "MERGE_MSG"⟩] ++ refsRmEv .loc "MERGE_HEAD",
           .ok "Merge made by the three-way strategy")
        else
          (trC ++ pr.1,
           .ok ("[" ++ (headDesc r ++ " " ++ hashObj cObj ++ "] " ++ commitMsgOf r mOpt)))

/- ------------------------------------------------------------------ -/
/- Diff and merge helpers.  Modelled from the spec (§4.4, §4.6); the   -/
/- diff and merge modules are not under src/.                          -/
/- ------------------------------------------------------------------ -/

/-- Paths whose blob hash differs between two flat tables of contents
(add, delete, or modify — anything but same). -/
def diffPaths (l r : List (String × String)) : List String :=
  (dedupAux [] ((l.map Prod.fst) ++ (r.map Prod.fst))).filter
    (fun p => lookupS l p ≠ lookupS r p)

/-- The working-copy table of contents restricted to indexed paths: each
stage-0 path present on disk, mapped to the hash of its current content. -/
def workingTocOpt (r : Repo) : List (String × String) :=
  (tocOf r).filterMap
    (fun pe => (lookupS r.wc pe.1).map (fun c => (pe.1, hashObj (.blob c))))

/-- The flat table of contents of the commit HEAD resolves to ([] when
there are no commits). -/
def headToc (r : Repo) : List (String × String) :=
  match refsHash r "HEAD" with
  | some h => commitToc r.objects h
  | none => []

/-- Modelled from the spec: changed_files_commit_would_overwrite — the
intersection of the paths that differ between HEAD and the target commit
with the paths that differ between HEAD and the index/working copy (§4.4). -/
def changedFilesCommitWouldOverwrite (r : Repo) (toHash : String) : List String :=
  (diffPaths (headToc r) (workingTocOpt r)).filter
    (fun p => (diffPaths (headToc r) (commitToc r.objects toHash)).contains p)

/-- Modelled from the spec: common_ancestor — some commit reachable from
both sides (either side itself included); the first such in the left
side's ancestor chain (§4.5 allows any choice). -/
def commonAncestor (store : List (String × Obj)) (a b : String) : Option String :=
  ((a :: ancestors store a).filter (fun x => (b :: ancestors store b).contains x)).head?

/-- Per-path outcome of the three-way diff of §4.6: keep a side's (possibly
absent) blob, or conflict. -/
inductive WStat where
  | take (h : Option String)
  | conflict
deriving DecidableEq, Repr

/-- Modelled from the spec: the three-way rule of §4.6 — agreement wins,
a single changed side wins, two different changes (including delete vs
modify) conflict. -/
def threeWay (b rcv gvr : Option String) : WStat :=
  if rcv = gvr then .take rcv
  else if rcv = b then .take gvr
  else if gvr = b then .take rcv
  else .conflict

/-- Modelled from the spec: the conflict-marked working-copy content —
receiver and giver contents separated by conventional markers (§4.6). -/
def conflictMarked (rc gc : String) : String :=
  "<<<<<<\n" ++ rc ++ "======\n" ++ gc ++ ">>>>>>\n"

/-- The union of the paths of the base, receiver and giver tables. -/
def mergePaths (baseT rT gT : List (String × String)) : List String :=
  dedupAux [] ((rT.map Prod.fst) ++ (gT.map Prod.fst) ++ (baseT.map Prod.fst))

/-- Modelled from the spec: merge.hasConflicts — the three-way diff of
receiver and giver (against their common ancestor) has a conflicted path. -/
def hasConflicts (r : Repo) (receiverHash giverHash : String) : Bool :=
  let store := r.objects
  let baseT := match commonAncestor store receiverHash giverHash with
               | some bh => commitToc store bh
               | none => []
  let rT := commitToc store receiverHash
  let gT := commitToc store giverHash
  (mergePaths baseT rT gT).any
    (fun p => threeWay (lookupS baseT p) (lookupS rT p) (lookupS gT p) = WStat.conflict)

/-- Modelled from the spec: merge.writeFastForwardMerge — advance the
current branch ref to the giver, rewrite the index to the giver's table of
contents, and apply the receiver→giver working-tree diff (§4.6). -/
def writeFastForwardMergeEv (w : World) (receiver : Option String) (giver : String) : List Ev :=
  let r := w.loc
  let newToc := commitToc r.objects giver
  let oldToc := match receiver with
                | some rc => commitToc r.objects rc
                | none => []
  refsWriteEv .loc (toLocalRef ((headBranchName r).getD "undefined")) giver ++
  [⟨.loc, .idxReplace (newToc.map (fun pe => ((pe.1, 0), pe.2)))⟩] ++
  newToc.filterMap (fun pe =>
    if lookupS oldToc pe.1 = some pe.2 then none
    else some ⟨.loc, .wcW pe.1 (blobContent r.objects pe.2)⟩) ++
  oldToc.filterMap (fun pe =>
    if (lookupS newToc pe.1).isNone then some ⟨.loc, .wcRm pe.1⟩ else none)

/-- Modelled from the spec: merge.writeNonFastForwardMerge — enter the
merge state (write MERGE_HEAD and a boilerplate MERGE_MSG), then apply the
three-way diff to index and working copy: resolved paths get stage 0 and
the resolved content, conflicted paths get stages 1/2/3 and a
conflict-marked working-copy file (§4.6). -/
def writeNonFastForwardMergeEv (w : World) (receiverHash giverHash ref : String) : List Ev :=
  let r := w.loc
  let store := r.objects
  let baseO := commonAncestor store receiverHash giverHash
  let baseT := match baseO with
               | some bh => commitToc store bh
               | none => []
  let rT := commitToc store receiverHash
  let gT := commitToc store giverHash
  [(⟨.loc, .fileW "MERGE_HEAD" giverHash⟩ : Ev),
   ⟨.loc, .fileW "MERGE_MSG" ("Merge " ++ ref ++ " into " ++ ((headBranchName r).getD "undefined"))⟩] ++
  ((mergePaths baseT rT gT).map (fun p =>
    match threeWay (lookupS baseT p) (lookupS rT p) (lookupS gT p) with
    | .take none => [(⟨.loc, .wcRm p⟩ : Ev), ⟨.loc, .idxRmAll p⟩]
    | .take (some h) => [(⟨.loc, .wcW p (blobContent store h)⟩ : Ev), ⟨.loc, .idxNC p h⟩]
    | .conflict =>
        let rc := ((lookupS rT p).map (blobContent store)).getD ""
        let gc := ((lookupS gT p).map (blobContent store)).getD ""
        [(⟨.loc, .wcW p (conflictMarked rc gc)⟩ : Ev), ⟨.loc, .idxRmAll p⟩] ++
        (match lookupS baseT p with
         | some bh => [(⟨.loc, .idxPut p 1 bh⟩ : Ev)]
         | none => []) ++
        (match lookupS rT p with
         | some rh => [(⟨.loc, .idxPut p 2 rh⟩ : Ev)]
         | none => []) ++
        (match lookupS gT p with
         | some gh => [(⟨.loc, .idxPut p 3 gh⟩ : Ev)]
         | none => []))).flatten

/- ------------------------------------------------------------------ -/
/- merge (src/version/index.js lines 452-505).                         -/
/- ------------------------------------------------------------------ -/

/-- src/version/index.js merge: refuse a detached HEAD; require the ref to
resolve to a commit; short-circuit with "Already up-to-date" when the
receiver already has the giver's changes; refuse when local changes would
be overwritten; fast-forward when possible; otherwise perform a
non-fast-forward merge, reporting conflicts or committing the result. -/
def mergeOp (w : World) (ref : String) : List Ev × Except String String :=
  let r := w.loc
  if r.bare then ([], .error "this operation must be run in a work tree")
  else
    let receiverHash := refsHash r "HEAD"
    let giverHash := refsHash r ref
    if isHeadDetached r then ([], .error "unsupported")
    else if giverHash.isNone ||
            ((lookupS r.objects (giverHash.getD "")).map objType) ≠ some "commit" then
      ([], .error (ref ++ ": expected commit type"))
    else if isUpToDate r.objects receiverHash giverHash then
      ([], .ok "Already up-to-date")
    else
      let paths := changedFilesCommitWouldOverwrite r (giverHash.getD "")
      if !paths.isEmpty then
        ([], .error ("local changes would be lost\n" ++ joinNL paths ++ "\n"))
      else if canFastForward r.objects receiverHash giverHash then
        (writeFastForwardMergeEv w receiverHash (giverHash.getD ""), .ok "Fast-forward")
      else
        let tr1 := writeNonFastForwardMergeEv w ((receiverHash).getD "undefined")
                     (giverHash.getD "") ref
        let w1 := applyEvs w tr1
        if hasConflicts w1.loc ((receiverHash).getD "undefined") (giverHash.getD "") then
          (tr1, .ok "Automatic merge failed. Fix conflicts and commit the result.")
        else
          let pr := commitOp w1 none
          (tr1 ++ pr.1, pr.2)

/- ------------------------------------------------------------------ -/
/- fetch (src/version/index.js lines 391-448).                         -/
/- ------------------------------------------------------------------ -/

/-- The events copying every object of the peer repository into the local
store (fetch's object transfer). -/
def copyFromPeerEvs (peer : Repo) : List Ev :=
  peer.objects.map (fun ko => (⟨Tgt.loc, Act.objW ko.2⟩ : Ev))

/-- The events copying every local object into the peer store at `url`
(push's object transfer). -/
def copyToPeerEvs (w : World) (url : String) : List Ev :=
  w.loc.objects.map (fun ko => (⟨Tgt.rem url, Act.objW ko.2⟩ : Ev))

/-- src/version/index.js fetch: require the remote to be configured (and,
modelled from the spec's peer handles, a repository to be present at its
url); resolve the branch on the peer; copy every peer object into the
local store; update the remote-tracking ref; overwrite FETCH_HEAD with the
record for this branch; report the object count and forcedness. -/
def fetchOp (w : World) (remoteO branchO : Option String) : List Ev × Except String String :=
  match remoteO, branchO with
  | some remote, some branch =>
    (match lookupS w.loc.remotes remote with
     | none => ([], .error (remote ++ " does not appear to be a git repository"))
     | some url =>
       match lookupS w.peers url with
       | none => ([], .error (remote ++ " does not appear to be a git repository"))
       | some peer =>
         let remoteRef := toRemoteRef remote branch
         match refsHash peer branch with
         | none => ([], .error ("couldn't find remote ref " ++ branch))
         | some newHash =>
           let oldHash := refsHash w.loc remoteRef
           let trCopy := copyFromPeerEvs peer
           let w1 := applyEvs w trCopy
           let pr := update_refOp w1 .loc remoteRef newHash
           match pr.2 with
           | .error e => (trCopy ++ pr.1, .error e)
           | .ok _ =>
             let w2 := applyEvs w (trCopy ++ pr.1)
             let trF := refsWriteEv .loc "FETCH_HEAD"
                          (newHash ++ " branch " ++ branch ++ " of " ++ url)
             (trCopy ++ pr.1 ++ trF,
              .ok ("From " ++ url ++ "\n" ++
                   "Count " ++ toString peer.objects.length ++ "\n" ++
                   branch ++ " -> " ++ remote ++ "/" ++ branch ++
                   (if isAForceFetch w2.loc.objects oldHash newHash then " (forced)" else "") ++
                   "\n")))
  | _, _ => ([], .error "unsupported")

/- ------------------------------------------------------------------ -/
/- push (src/version/index.js lines 516-573).                          -/
/- ------------------------------------------------------------------ -/

/-- src/version/index.js push: require the remote to be configured (and a
repository at its url); refuse to update the peer's checked-out branch;
report "Already up-to-date" when the peer already has the local commit;
refuse a non-fast-forward push without force; otherwise copy every local
object to the peer, point the peer's branch at the local hash, and update
the local remote-tracking ref. -/
def pushOp (w : World) (remoteO branchO : Option String) (force : Bool) :
    List Ev × Except String String :=
  match remoteO, branchO with
  | some remote, some branch =>
    (match lookupS w.loc.remotes remote with
     | none => ([], .error (remote ++ " does not appear to be a git repository"))
     | some url =>
       match lookupS w.peers url with
       | none => ([], .error (remote ++ " does not appear to be a git repository"))
       | some peer =>
         if isCheckedOut peer branch then
           ([], .error ("refusing to update checked out branch " ++ branch))
         else
           let receiverHash := refsHash peer branch
           let giverHash := refsHash w.loc branch
           if isUpToDate w.loc.objects receiverHash giverHash then
             ([], .ok "Already up-to-date")
           else if !force && !canFastForward w.loc.objects receiverHash giverHash then
             ([], .error ("failed to push some refs to " ++ url))
           else
             let trCopy := copyToPeerEvs w url
             let w1 := applyEvs w trCopy
             let pr1 := update_refOp w1 (.rem url) (toLocalRef branch) (giverHash.getD "undefined")
             match pr1.2 with
             | .error e => (trCopy ++ pr1.1, .error e)
             | .ok _ =>
               let w2 := applyEvs w (trCopy ++ pr1.1)
               let pr2 := update_refOp w2 .loc (toRemoteRef remote branch) (giverHash.getD "undefined")
               match pr2.2 with
               | .error e => (trCopy ++ pr1.1 ++ pr2.1, .error e)
               | .ok _ =>
                 (trCopy ++ pr1.1 ++ pr2.1,
                  .ok ("To " ++ url ++ "\n" ++
                       "Count " ++ toString w.loc.objects.length ++ "\n" ++
                       branch ++ " -> " ++ branch ++ "\n")))
  | _, _ => ([], .error "unsupported")

/- ------------------------------------------------------------------ -/
/- Effect-ordering observations (for the temporal claim).              -/
/- ------------------------------------------------------------------ -/

/-- An event is an object-store write. -/
def isObjEv (e : Ev) : Bool :=
  match e.act with
  | .objW _ => true
  | _ => false

/-- An event is a ref update: a file write to HEAD or under refs/ (the
hash-holding refs; FETCH_HEAD record writes and ref removals are not hash
pointers). -/
def isRefUpd (e : Ev) : Bool :=
  match e.act with
  | .fileW name _ => name = "HEAD" || (("refs/".data).isPrefixOf name.data)
  | _ => false

/-- The hash written by a ref update event. -/
def evHash (e : Ev) : String :=
  match e.act with
  | .fileW _ c => c
  | _ => ""

/-- No object write happens after any ref update in the trace. -/
def objsBeforeRefs : List Ev → Bool
  | [] => true
  | e :: rest => if isRefUpd e then rest.all (fun x => !isObjEv x) else objsBeforeRefs rest

/-- Replaying the trace, every ref update points at an object that exists
in the targeted store at the moment the ref is written. -/
def refUpdsValid (w : World) : List Ev → Bool
  | [] => true
  | e :: rest =>
      (!(isRefUpd e) || objectsExists (repoAt w e.tgt) (evHash e)) &&
      refUpdsValid (applyEv w e) rest

/- ------------------------------------------------------------------ -/
/- Concrete fixtures for witnesses and counterexamples.                -/
/- ------------------------------------------------------------------ -/

/-- Fixture: a blob with content "1\n". -/
def blob1 : Obj := .blob "1\n"

/-- Fixture: hash of `blob1`. -/
def bh : String := hashObj blob1

/-- Fixture: the tree containing a.txt -> blob1. -/
def tree1 : Obj := .tree [("blob", "a.txt", bh)]

/-- Fixture: hash of `tree1`. -/
def th : String := hashObj tree1

/-- Fixture: the first commit. -/
def c1 : Obj := .commit th [] "c1"

/-- Fixture: hash of `c1`. -/
def ch : String := hashObj c1

/-- Fixture: a local repository with one commit on master, one indexed
file, and a remote "origin" at url "./peer". -/
def locR : Repo := {
  files := [("HEAD", "ref: refs/heads/master\n"), ("refs/heads/master", ch)],
  objects := [(bh, blob1), (th, tree1), (ch, c1)],
  idx := [(("a.txt", 0), bh)],
  wc := [("a.txt", "1\n")],
  bare := false,
  remotes := [("origin", "./peer")] }

/-- Fixture: an empty bare peer repository. -/
def peerR : Repo := {
  files := [("HEAD", "ref: refs/heads/master\n")],
  objects := [], idx := [], wc := [], bare := true, remotes := [] }

/-- Fixture: the world with `locR` local and `peerR` at "./peer". -/
def W0 : World := { loc := locR, peers := [("./peer", peerR)] }

/-- Fixture: a second commit (same tree, different message), used as the
tip of branch feat on the fetch peer. -/
def c2f : Obj := .commit th [] "c2feat"

/-- Fixture: hash of `c2f`. -/
def ch2 : String := hashObj c2f

/-- Fixture: a bare peer carrying branches master (at c1) and feat (at
c2f). -/
def peer2 : Repo := {
  files := [("HEAD", "ref: refs/heads/master\n"), ("refs/heads/master", ch),
            ("refs/heads/feat", ch2)],
  objects := [(bh, blob1), (th, tree1), (ch, c1), (ch2, c2f)],
  idx := [], wc := [], bare := true, remotes := [] }

/-- Fixture: a fresh local repository with remote origin at "./p2". -/
def locF : Repo := {
  files := [("HEAD", "ref: refs/heads/master\n")],
  objects := [], idx := [], wc := [], bare := false, remotes := [("origin", "./p2")] }

/-- Fixture: the fetch world. -/
def WF : World := { loc := locF, peers := [("./p2", peer2)] }

/-- Fixture: the fetch world after fetching feat. -/
def WF1 : World := applyEvs WF (fetchOp WF (some "origin") (some "feat")).1

/-- Fixture: the fetch world after fetching feat and then master. -/
def WF2 : World := applyEvs WF1 (fetchOp WF1 (some "origin") (some "master")).1

/-- Fixture: a repository on branch "of" whose FETCH_HEAD records a fetch
of a branch literally named "branch" from a url starting with "of" — the
regex-collision state for refs.hash("FETCH_HEAD"). -/
def locC3 : Repo := {
  files := [("HEAD", "ref: refs/heads/of\n"), ("FETCH_HEAD", "42 branch branch of ofpeer")],
  objects := [], idx := [], wc := [], bare := false, remotes := [] }

/- ================================================================== -/
/- Theorems.                                                           -/
/- ================================================================== -/

/-- String extensionality via the underlying character list. -/
theorem strExt {a b : String} (h : a.data = b.data) : a = b := by
  cases a; cases b; exact congrArg String.mk h

/-- The character list of a concatenation. -/
theorem strDataAppend (a b : String) : (a ++ b).data = a.data ++ b.data := rfl

/-- Lookup after insert-or-replace. -/
theorem lookupS_setKV {α β : Type} [DecidableEq α] (l : List (α × β)) (k k' : α) (v : β) :
    lookupS (setKV l k v) k' = if k' = k then some v else lookupS l k' := by
  induction l with
  | nil =>
      by_cases h : k' = k
      · subst h; simp [setKV, lookupS]
      · have h' : ¬(k = k') := fun hh => h (Eq.symm hh)
        simp [setKV, lookupS, h, h']
  | cons kv rest ih =>
      by_cases h1 : kv.1 = k
      · by_cases h2 : k' = k
        · subst h2; simp [setKV, lookupS, h1]
        · have h3 : ¬(k = k') := fun hh => h2 (Eq.symm hh)
          have h4 : ¬(kv.1 = k') := fun hh => h2 (Eq.symm (h1 ▸ hh))
          simp [setKV, lookupS, h1, h3, h4, h2]
      · by_cases h2 : kv.1 = k'
        · have h3 : ¬(k' = k) := fun hh => h1 (h2.trans hh)
          simp [setKV, lookupS, h1, h2, h3]
        · simp [setKV, lookupS, h1, h2, ih]

/-- Replaying a concatenation of event lists. -/
theorem applyEvs_append (w : World) (a b : List Ev) :
    applyEvs w (a ++ b) = applyEvs (applyEvs w a) b := by
  simp [applyEvs, List.foldl_append]

/-- Local events do not change the peer table. -/
theorem applyEvs_loc_peers (es : List Ev) :
    ∀ (w : World), (∀ e ∈ es, e.tgt = Tgt.loc) → (applyEvs w es).peers = w.peers := by
  induction es with
  | nil => intro w _; rfl
  | cons e rest ih =>
      intro w h
      have he : e.tgt = Tgt.loc := h e (by simp)
      have hrest : ∀ e' ∈ rest, e'.tgt = Tgt.loc := fun e' he' => h e' (by simp [he'])
      calc (applyEvs w (e :: rest)).peers
          = (applyEvs (applyEv w e) rest).peers := rfl
        _ = (applyEv w e).peers := ih (applyEv w e) hrest
        _ = w.peers := by simp [applyEv, he]

/-- Remote events do not change the local repository. -/
theorem applyEvs_rem_loc (es : List Ev) :
    ∀ (w : World), (∀ e ∈ es, e.tgt ≠ Tgt.loc) → (applyEvs w es).loc = w.loc := by
  induction es with
  | nil => intro w _; rfl
  | cons e rest ih =>
      intro w h
      have he : e.tgt ≠ Tgt.loc := h e (by simp)
      have hrest : ∀ e' ∈ rest, e'.tgt ≠ Tgt.loc := fun e' he' => h e' (by simp [he'])
      have hstep : (applyEv w e).loc = w.loc := by
        cases ht : e.tgt with
        | loc => exact absurd ht he
        | rem url =>
            simp only [applyEv, ht]
            cases lookupS w.peers url <;> rfl
      calc (applyEvs w (e :: rest)).loc
          = (applyEvs (applyEv w e) rest).loc := rfl
        _ = (applyEv w e).loc := ih (applyEv w e) hrest
        _ = w.loc := hstep

/-- A character allowed in branch names is not a slash. -/
theorem validChar_ne_slash {c : Char} (h : validChar c = true) : c ≠ '/' := by
  intro hc
  subst hc
  simp [validChar] at h

/-- takeWhile over a run of satisfying characters followed by a failing
one. -/
theorem takeWhile_all_append {p : Char → Bool} (a : List Char) (x : Char) (b : List Char)
    (ha : ∀ c ∈ a, p c = true) (hx : p x = false) :
    (a ++ x :: b).takeWhile p = a := by
  induction a with
  | nil => simp [List.takeWhile_cons, hx]
  | cons c cs ih =>
      have hc : p c = true := ha c (by simp)
      have hcs : ∀ c' ∈ cs, p c' = true := fun c' hc' => ha c' (by simp [hc'])
      simp [List.takeWhile_cons, hc, ih hcs]

/-- drop past a marked position in a split list. -/
theorem drop_all_append (a : List Char) (x : Char) (b : List Char) :
    (a ++ x :: b).drop (a.length + 1) = b := by
  have h1 : a ++ x :: b = (a ++ [x]) ++ b := by simp
  have h2 : (a ++ [x]).length = a.length + 1 := by simp
  rw [h1, ← h2, List.drop_left]

/-- Dissect a list at the end of its takeWhile run when the run is
proper. -/
theorem takeWhile_lt_split {p : Char → Bool} :
    ∀ (l : List Char), (l.takeWhile p).length < l.length →
      ∃ c, p c = false ∧ l = l.takeWhile p ++ c :: l.drop ((l.takeWhile p).length + 1) := by
  intro l
  induction l with
  | nil => simp
  | cons x xs ih =>
      by_cases hp : p x
      · intro hlen
        have hlen' : (xs.takeWhile p).length < xs.length := by
          simp [List.takeWhile_cons, hp] at hlen
          omega
        obtain ⟨c, hc, heq⟩ := ih hlen'
        refine ⟨c, hc, ?_⟩
        simp only [List.takeWhile_cons, hp, if_true, List.length_cons, List.cons_append,
          List.drop_succ_cons]
        exact congrArg (x :: ·) heq
      · intro _
        refine ⟨x, by simpa using hp, ?_⟩
        simp [List.takeWhile_cons, hp]

/-- Claim C8: refs.write with a name that fails ref syntax is a silent
no-op — it emits no events, raises no error, and leaves the world (all
refs and repository state) unchanged. -/
theorem claim_C8 (w : World) (t : Tgt) (name content : String)
    (h : isRefStr name = false) :
    refsWriteEv t name content = [] ∧ applyEvs w (refsWriteEv t name content) = w := by
  constructor
  · simp [refsWriteEv, h]
  · simp [refsWriteEv, h, applyEvs]

/-- Witness for C8 at the concrete invalid name "bad name". -/
theorem claim_C8_witness :
    isRefStr "bad name" = false ∧
      (refsWriteEv Tgt.loc "bad name" "123" = [] ∧
        applyEvs W0 (refsWriteEv Tgt.loc "bad name" "123") = W0) :=
  ⟨by decide, claim_C8 W0 Tgt.loc "bad name" "123" (by decide)⟩

/-- Counterexample to C6 as stated: the source's isRef rejects MERGE_MSG,
although the claim lists it among the accepted transient operational
refs. -/
theorem claim_C6_counterexample : isRefStr "MERGE_MSG" = false := by decide

/-- Claim C6 (amended): isRef is a total deterministic Boolean function of
the string which is true exactly for HEAD, FETCH_HEAD, MERGE_HEAD (not
MERGE_MSG), refs/heads/<name>, and refs/remotes/<remote>/<name> with the
names restricted to nonempty runs of `[A-Za-z-]`. -/
theorem claim_C6 (s : String) :
    isRefStr s = true ↔
      (s = "HEAD" ∨ s = "FETCH_HEAD" ∨ s = "MERGE_HEAD" ∨
       (∃ n : String, validNameL n.data = true ∧ s = "refs/heads/" ++ n) ∨
       (∃ rn bn : String, validNameL rn.data = true ∧ validNameL bn.data = true ∧
         s = "refs/remotes/" ++ rn ++ "/" ++ bn)) := by
  constructor
  · intro h
    simp only [isRefStr, Bool.or_eq_true, Bool.and_eq_true, decide_eq_true_eq] at h
    rcases h with (((⟨hpre, hval⟩ | ⟨hpre, hrem⟩) | hh) | hf) | hm
    · rw [List.isPrefixOf_iff_prefix] at hpre
      obtain ⟨t, ht⟩ := hpre
      have hdrop : s.data.drop 11 = t := by
        rw [← ht]
        have hl : ("refs/heads/".data).length = 11 := rfl
        rw [← hl, List.drop_left]
      refine Or.inr (Or.inr (Or.inr (Or.inl ⟨⟨t⟩, ?_, ?_⟩)))
      · rw [← hdrop]; exact hval
      · apply strExt
        rw [strDataAppend, ← ht]
    · rw [List.isPrefixOf_iff_prefix] at hpre
      obtain ⟨t, ht⟩ := hpre
      have hdrop : s.data.drop 13 = t := by
        rw [← ht]
        have hl : ("refs/remotes/".data).length = 13 := rfl
        rw [← hl, List.drop_left]
      simp only [remPartL, Bool.and_eq_true, decide_eq_true_eq] at hrem
      obtain ⟨⟨hva, hlen⟩, hvb⟩ := hrem
      obtain ⟨c, hc, hsplit⟩ := takeWhile_lt_split (s.data.drop 13) hlen
      have hcslash : c = '/' := by
        by_cases hcc : c = '/'
        · exact hcc
        · simp [hcc] at hc
      subst hcslash
      rw [hdrop] at hva hvb hsplit
      refine Or.inr (Or.inr (Or.inr (Or.inr
        ⟨⟨t.takeWhile (fun ch => ch ≠ '/')⟩,
         ⟨t.drop ((t.takeWhile (fun ch => ch ≠ '/')).length + 1)⟩,
         hva, hvb, ?_⟩)))
      apply strExt
      rw [strDataAppend, strDataAppend, strDataAppend]
      show s.data = "refs/remotes/".data ++ t.takeWhile (fun ch => ch ≠ '/') ++ ['/'] ++
        t.drop ((t.takeWhile (fun ch => ch ≠ '/')).length + 1)
      rw [← ht]
      rw [List.append_assoc, List.append_assoc]
      refine congrArg (fun l => "refs/remotes/".data ++ l) ?_
      simpa using hsplit
    · exact Or.inl hh
    · exact Or.inr (Or.inl hf)
    · exact Or.inr (Or.inr (Or.inl hm))
  · intro h
    rcases h with rfl | rfl | rfl | ⟨n, hn, rfl⟩ | ⟨rn, bn, hrn, hbn, rfl⟩
    · decide
    · decide
    · decide
    · simp only [isRefStr, Bool.or_eq_true, Bool.and_eq_true]
      refine Or.inl (Or.inl (Or.inl (Or.inl ⟨?_, ?_⟩)))
      · rw [List.isPrefixOf_iff_prefix, strDataAppend]
        exact List.prefix_append _ _
      · rw [strDataAppend]
        have hl : ("refs/heads/".data).length = 11 := rfl
        rw [← hl, List.drop_left]
        exact hn
    · have hdata : ("refs/remotes/" ++ rn ++ "/" ++ bn).data =
          "refs/remotes/".data ++ (rn.data ++ '/' :: bn.data) := by
        rw [strDataAppend, strDataAppend, strDataAppend]
        simp
      simp only [isRefStr, Bool.or_eq_true, Bool.and_eq_true]
      refine Or.inl (Or.inl (Or.inl (Or.inr ⟨?_, ?_⟩)))
      · rw [List.isPrefixOf_iff_prefix, hdata]
        exact List.prefix_append _ _
      · rw [hdata]
        have hl : ("refs/remotes/".data).length = 13 := rfl
        rw [← hl, List.drop_left]
        have hslash : ∀ c ∈ rn.data, decide (c ≠ '/') = true := by
          intro c hc
          simp only [validNameL, Bool.and_eq_true, List.all_eq_true] at hrn
          exact decide_eq_true (validChar_ne_slash (hrn.2 c hc))
        have htw : (rn.data ++ '/' :: bn.data).takeWhile (fun c => c ≠ '/') = rn.data :=
          takeWhile_all_append rn.data '/' bn.data hslash (by simp)
        simp only [remPartL, htw, Bool.and_eq_true, decide_eq_true_eq]
        refine ⟨⟨hrn, by simp⟩, ?_⟩
        rw [drop_all_append]
        exact hbn

/-- Witness for C6 applied at the qualified local ref for branch
"master". -/
theorem claim_C6_witness : isRefStr "refs/heads/master" = true :=
  (claim_C6 "refs/heads/master").mpr
    (Or.inr (Or.inr (Or.inr (Or.inl ⟨"master", by decide, by decide⟩))))

/-- Claim C5: update_ref fails when the target does not resolve to an
existing object, then when the ref to update fails ref syntax, then when
the resolved hash is not a commit — in that order (each earlier error
preempts the later checks regardless of their outcome) — and otherwise
writes the resolved hash to the terminal form of the ref. -/
theorem claim_C5 (w : World) (t : Tgt) (a b : String) :
    (objectsExistsO (repoAt w t) (refsHash (repoAt w t) b) = false →
      update_refOp w t a b = ([], Except.error (b ++ " not a valid SHA1"))) ∧
    (objectsExistsO (repoAt w t) (refsHash (repoAt w t) b) = true →
      isRefStr a = false →
      update_refOp w t a b = ([], Except.error ("cannot lock the ref " ++ a))) ∧
    (objectsExistsO (repoAt w t) (refsHash (repoAt w t) b) = true →
      isRefStr a = true →
      objTypeOfRead (repoAt w t) ((refsHash (repoAt w t) b).getD "") ≠ some "commit" →
      update_refOp w t a b = ([], Except.error (terminalRef (repoAt w t) a ++
        " cannot refer to non-commit object " ++ (refsHash (repoAt w t) b).getD "" ++ "\n"))) ∧
    (objectsExistsO (repoAt w t) (refsHash (repoAt w t) b) = true →
      isRefStr a = true →
      objTypeOfRead (repoAt w t) ((refsHash (repoAt w t) b).getD "") = some "commit" →
      update_refOp w t a b =
        (refsWriteEv t (terminalRef (repoAt w t) a) ((refsHash (repoAt w t) b).getD ""),
         Except.ok "")) := by
  refine ⟨?_, ?_, ?_, ?_⟩
  · intro h1
    simp [update_refOp, h1]
  · intro h1 h2
    simp [update_refOp, h1, h2]
  · intro h1 h2 h3
    simp [update_refOp, h1, h2, h3]
  · intro h1 h2 h3
    simp [update_refOp, h1, h2, h3]

/-- Witness for C5: updating refs/heads/dev to the commit hash `ch` in the
fixture world writes the hash to the terminal ref. -/
theorem claim_C5_witness :
    objectsExistsO (repoAt W0 Tgt.loc) (refsHash (repoAt W0 Tgt.loc) ch) = true ∧
    isRefStr "refs/heads/dev" = true ∧
    objTypeOfRead (repoAt W0 Tgt.loc) ((refsHash (repoAt W0 Tgt.loc) ch).getD "") = some "commit" ∧
    update_refOp W0 Tgt.loc "refs/heads/dev" ch =
      (refsWriteEv Tgt.loc (terminalRef (repoAt W0 Tgt.loc) "refs/heads/dev")
        ((refsHash (repoAt W0 Tgt.loc) ch).getD ""), Except.ok "") :=
  ⟨by decide, by decide, by decide,
   (claim_C5 W0 Tgt.loc "refs/heads/dev" ch).2.2.2 (by decide) (by decide) (by decide)⟩

/-- Claim C10: update_index with remove on a path that exists on disk and
is in the index at stage 0 does not remove it — the call falls through to
the add case, stores the file's current content as a blob, overwrites
stage 0 with its hash, and returns normally. -/
theorem claim_C10 (w : World) (path c : String)
    (hb : w.loc.bare = false)
    (hf : lookupS w.loc.wc path = some c)
    (hi : idxHasFile w.loc path 0 = true) :
    update_indexOp w path false true =
      ([⟨Tgt.loc, Act.objW (Obj.blob c)⟩, ⟨Tgt.loc, Act.idxNC path (hashObj (Obj.blob c))⟩],
       Except.ok "\n") ∧
    idxHasFile (applyEvs w (update_indexOp w path false true).1).loc path 0 = true ∧
    lookupS (applyEvs w (update_indexOp w path false true).1).loc.idx (path, 0) =
      some (hashObj (Obj.blob c)) := by
  have hfe : wcFileExists w.loc path = true := by simp [wcFileExists, hf]
  have hod : wcExists w.loc path = true := by simp [wcExists, hfe]
  have hnd : wcIsDirectory w.loc path = false := by simp [wcIsDirectory, hfe]
  have heq : update_indexOp w path false true =
      ([⟨Tgt.loc, Act.objW (Obj.blob c)⟩, ⟨Tgt.loc, Act.idxNC path (hashObj (Obj.blob c))⟩],
       Except.ok "\n") := by
    simp [update_indexOp, hb, hod, hnd, hi, hf]
  refine ⟨heq, ?_, ?_⟩
  · rw [heq]
    simp [applyEvs, applyEv, applyAct, idxHasFile, lookupS_setKV]
  · rw [heq]
    simp [applyEvs, applyEv, applyAct, lookupS_setKV]

/-- Witness for C10 at the fixture world: a.txt is on disk and at stage 0,
and update_index with remove re-stages it instead of removing it. -/
theorem claim_C10_witness :
    locR.bare = false ∧ lookupS locR.wc "a.txt" = some "1\n" ∧
    idxHasFile locR "a.txt" 0 = true ∧
    (update_indexOp W0 "a.txt" false true =
      ([⟨Tgt.loc, Act.objW (Obj.blob "1\n")⟩,
        ⟨Tgt.loc, Act.idxNC "a.txt" (hashObj (Obj.blob "1\n"))⟩], Except.ok "\n") ∧
     idxHasFile (applyEvs W0 (update_indexOp W0 "a.txt" false true).1).loc "a.txt" 0 = true ∧
     lookupS (applyEvs W0 (update_indexOp W0 "a.txt" false true).1).loc.idx ("a.txt", 0) =
       some (hashObj (Obj.blob "1\n"))) :=
  ⟨by decide, by decide, by decide,
   claim_C10 W0 "a.txt" "1\n" (by decide) (by decide) (by decide)⟩

/-- joinNL of a nonempty list starts with its first element. -/
theorem joinNL_head (x : String) (rest : List String) :
    ∃ suf, (joinNL (x :: rest)).data = x.data ++ suf := by
  cases rest with
  | nil => exact ⟨[], by simp [joinNL]⟩
  | cons y ys =>
      refine ⟨"\n".data ++ (joinNL (y :: ys)).data, ?_⟩
      show ((x ++ "\n") ++ joinNL (y :: ys)).data = _
      rw [strDataAppend, strDataAppend, List.append_assoc]

/-- Strings whose character lists start with different characters
differ. -/
theorem str_ne_of_head {a b : String} {c d : Char}
    (hc : a.data.head? = some c) (hd : b.data.head? = some d) (hne : c ≠ d) :
    a ≠ b := by
  intro h
  subst h
  rw [hc] at hd
  injection hd with hcd
  exact hne hcd

/-- The nothing-to-commit message starts with a hash mark. -/
theorem nothingMsg_head (r : Repo) : (nothingMsg r).data.head? = some '#' := rfl

/-- The unmerged-files message starts with a U when there is a conflicted
path. -/
theorem unmergedMsg_head (r : Repo) (p : String) (ps : List String)
    (h : conflictedPaths r = p :: ps) : (unmergedMsg r).data.head? = some 'U' := by
  obtain ⟨suf, hsuf⟩ := joinNL_head ("U " ++ p) (ps.map (fun q => "U " ++ q))
  have hform : unmergedMsg r =
      joinNL (("U " ++ p) :: ps.map (fun q => "U " ++ q)) ++
        "\ncannot commit because you have unmerged files\n" := by
    rw [unmergedMsg, h]
    simp
  rw [hform, strDataAppend, hsuf]
  have hcons : ("U " ++ p).data = 'U' :: (' ' :: p.data) := rfl
  rw [hcons]
  simp

/-- An object just written to the local store can be looked up under its
hash. -/
theorem lookup_last_objW (w : World) (es : List Ev) (o : Obj) :
    lookupS ((applyEvs w (es ++ [⟨Tgt.loc, Act.objW o⟩])).loc.objects) (hashObj o) = some o := by
  rw [applyEvs_append]
  simp [applyEvs, applyEv, applyAct, lookupS_setKV]

/-- update_ref("HEAD", h) succeeds whenever the store holds a commit
object under h. -/
theorem update_ref_head_ok (w : World) (h : String) (t' : String) (ps : List String) (cm : String)
    (ho : lookupS w.loc.objects h = some (Obj.commit t' ps cm)) :
    (update_refOp w Tgt.loc "HEAD" h).2 = Except.ok "" := by
  have he : objectsExists w.loc h = true := by simp [objectsExists, ho]
  have hhh : refsHash w.loc h = some h := by simp [refsHash, he]
  have hhead : isRefStr "HEAD" = true := by decide
  simp [update_refOp, repoAt, objectsExistsO, hhh, he, objTypeOfRead, ho, hhead, objType]

/-- Either branch of an ok/ok conditional yields an ok result. -/
theorem exists_ok_of_ite {c : Prop} [Decidable c] (x y : List Ev) (a b : String) :
    ∃ s, (if c then (x, Except.ok a) else (y, (Except.ok b : Except String String))).2 =
      Except.ok s := by
  by_cases h : c
  · exact ⟨a, by simp [h]⟩
  · exact ⟨b, by simp [h]⟩

/-- Claim C4: in a non-bare repository whose HEAD resolves to a commit,
commit fails with the nothing-to-commit error exactly when the tree written
from the index is the tree of the HEAD commit (the content-addressed store
identifies trees with their hashes); on branch master the message is
exactly "# On master\nnothing to commit, working directory clean"; when the
trees differ the commit proceeds, subject only to the unresolved-conflict
check. -/
theorem claim_C4 (w : World) (mo : Option String) (h t' : String) (ps : List String) (cm : String)
    (hb : w.loc.bare = false)
    (hh : refsHash w.loc "HEAD" = some h)
    (hc : lookupS w.loc.objects h = some (Obj.commit t' ps cm)) :
    (((commitOp w mo).2 = Except.error (nothingMsg w.loc)) ↔
        (write_treeEv Tgt.loc w.loc).2 = t') ∧
    (headBranchName w.loc = some "master" → isHeadDetached w.loc = false →
      (write_treeEv Tgt.loc w.loc).2 = t' →
      (commitOp w mo).2 =
        Except.error "# On master\nnothing to commit, working directory clean") ∧
    ((write_treeEv Tgt.loc w.loc).2 ≠ t' →
      (isMergeInProgress w.loc = true ∧ (conflictedPaths w.loc).isEmpty = false ∧
        (commitOp w mo).2 = Except.error (unmergedMsg w.loc)) ∨
      (∃ s, (commitOp w mo).2 = Except.ok s)) := by
  have hth' : objTreeHashO w.loc (some h) = some t' := by
    simp [objTreeHashO, hc]
  by_cases heq : (write_treeEv Tgt.loc w.loc).2 = t'
  · have hres : (commitOp w mo).2 = Except.error (nothingMsg w.loc) := by
      simp [commitOp, hb, hh, hth', heq]
    refine ⟨⟨fun _ => heq, fun _ => hres⟩, fun hbn hdet _ => ?_, fun hne => absurd heq hne⟩
    rw [hres]
    have hdescm : headDesc w.loc = "master" := by simp [headDesc, hdet, hbn]
    have hmsg : nothingMsg w.loc = "# On master\nnothing to commit, working directory clean" := by
      rw [nothingMsg, hdescm]
      decide
    rw [hmsg]
  · have hne' : ¬(t' = (write_treeEv Tgt.loc w.loc).2) := fun hx => heq hx.symm
    have hdne : decide (t' = (write_treeEv Tgt.loc w.loc).2) = false := decide_eq_false hne'
    by_cases hm1 : isMergeInProgress w.loc = true
    case neg =>
      rw [Bool.not_eq_true] at hm1
      have hpr : (update_refOp (applyEvs w ((write_treeEv Tgt.loc w.loc).1 ++
          [⟨Tgt.loc, Act.objW (commitObjOf w.loc mo)⟩])) Tgt.loc "HEAD"
          (hashObj (commitObjOf w.loc mo))).2 = Except.ok "" :=
        update_ref_head_ok _ _ _ _ _ (lookup_last_objW w _ (commitObjOf w.loc mo))
      have hok : ∃ s, (commitOp w mo).2 = Except.ok s := by
        simp only [commitOp, hb, Bool.false_eq_true, if_false, hh, hth',
          Option.isSome_some, Bool.true_and, Option.some.injEq, hdne, hm1,
          Bool.false_and, hpr]
        exact exists_ok_of_ite _ _ _ _
      obtain ⟨s, hs⟩ := hok
      refine ⟨⟨fun hcontra => ?_, fun hx => absurd hx heq⟩, fun _ _ hx => absurd hx heq,
        fun _ => Or.inr ⟨s, hs⟩⟩
      rw [hs] at hcontra
      exact Except.noConfusion hcontra
    case pos =>
      by_cases hm2 : (conflictedPaths w.loc).isEmpty = true
      · have hpr : (update_refOp (applyEvs w ((write_treeEv Tgt.loc w.loc).1 ++
            [⟨Tgt.loc, Act.objW (commitObjOf w.loc mo)⟩])) Tgt.loc "HEAD"
            (hashObj (commitObjOf w.loc mo))).2 = Except.ok "" :=
          update_ref_head_ok _ _ _ _ _ (lookup_last_objW w _ (commitObjOf w.loc mo))
        have hok : ∃ s, (commitOp w mo).2 = Except.ok s := by
          simp only [commitOp, hb, Bool.false_eq_true, if_false, hh, hth',
            Option.isSome_some, Bool.true_and, Option.some.injEq, hdne, hm2,
            Bool.not_true, Bool.and_false, hpr]
          exact exists_ok_of_ite _ _ _ _
        obtain ⟨s, hs⟩ := hok
        refine ⟨⟨fun hcontra => ?_, fun hx => absurd hx heq⟩, fun _ _ hx => absurd hx heq,
          fun _ => Or.inr ⟨s, hs⟩⟩
        rw [hs] at hcontra
        exact Except.noConfusion hcontra
      · have hcp : ∃ p psx, conflictedPaths w.loc = p :: psx := by
          cases hcpl : conflictedPaths w.loc with
          | nil => rw [hcpl] at hm2; simp at hm2
          | cons a l => exact ⟨a, l, rfl⟩
        obtain ⟨p, psx, hcpl⟩ := hcp
        have hres : (commitOp w mo).2 = Except.error (unmergedMsg w.loc) := by
          simp only [commitOp, hb, Bool.false_eq_true, if_false, hh, hth',
            Option.isSome_some, Bool.true_and, Option.some.injEq, hdne, hm1, hcpl,
            List.isEmpty_cons, Bool.not_false, Bool.and_true, if_true, Bool.true_and]
        have hneq : unmergedMsg w.loc ≠ nothingMsg w.loc :=
          str_ne_of_head (unmergedMsg_head w.loc p psx hcpl) (nothingMsg_head w.loc) (by decide)
        refine ⟨⟨fun hcontra => ?_, fun hx => absurd hx heq⟩, fun _ _ hx => absurd hx heq,
          fun _ => Or.inl ⟨hm1, by simp [hcpl], hres⟩⟩
        rw [hres] at hcontra
        exact absurd (Except.error.inj hcontra) hneq

/-- Witness for C4: in the fixture world the index tree equals the HEAD
tree and commit fails with exactly the specified message. -/
theorem claim_C4_witness :
    W0.loc.bare = false ∧ refsHash W0.loc "HEAD" = some ch ∧
    lookupS W0.loc.objects ch = some (Obj.commit th [] "c1") ∧
    (commitOp W0 (some "c2")).2 =
      Except.error "# On master\nnothing to commit, working directory clean" :=
  ⟨by decide, by decide, by decide,
   (claim_C4 W0 (some "c2") ch th [] "c1" (by decide) (by decide) (by decide)).2.1
     (by decide) (by decide) (by decide)⟩

/-- Counterexample to C7 as stated: fetching feat and then master leaves
FETCH_HEAD holding only the master record — the feat record written by the
earlier fetch is gone, because fetch overwrites the whole file. -/
theorem claim_C7_counterexample :
    (fetchOp WF (some "origin") (some "feat")).2 =
      Except.ok "From ./p2\nCount 4\nfeat -> origin/feat\n" ∧
    filesRead WF1.loc "FETCH_HEAD" = some (ch2 ++ " branch feat of ./p2") ∧
    (fetchOp WF1 (some "origin") (some "master")).2 =
      Except.ok "From ./p2\nCount 4\nmaster -> origin/master\n" ∧
    filesRead WF2.loc "FETCH_HEAD" = some (ch ++ " branch master of ./p2") ∧
    occursAny (" branch feat of".data) (((filesRead WF2.loc "FETCH_HEAD").getD "").data) = false :=
  ⟨by decide, by decide, by decide, by decide, by decide⟩

/-- Claim C7 (amended): after every successful fetch, FETCH_HEAD holds
exactly the one record "<hash> branch <b> of <url>" for the fetched branch;
fetch overwrites the whole file, so records written by earlier fetches of
other branches are not preserved. -/
theorem claim_C7 (w : World) (remote branch url : String) (peer : Repo)
    (tr : List Ev) (msg : String)
    (hu : lookupS w.loc.remotes remote = some url)
    (hp : lookupS w.peers url = some peer)
    (hf : fetchOp w (some remote) (some branch) = (tr, Except.ok msg)) :
    ∃ nh, refsHash peer branch = some nh ∧
      filesRead (applyEvs w tr).loc "FETCH_HEAD" =
        some (nh ++ " branch " ++ branch ++ " of " ++ url) := by
  simp only [fetchOp, hu, hp] at hf
  cases hnh : refsHash peer branch with
  | none => simp only [hnh] at hf; simp at hf
  | some nh =>
      simp only [hnh] at hf
      refine ⟨nh, rfl, ?_⟩
      cases hu2 : (update_refOp (applyEvs w (copyFromPeerEvs peer)) Tgt.loc
          (toRemoteRef remote branch) nh).2 with
      | error e => simp only [hu2] at hf; simp at hf
      | ok u =>
          simp only [hu2] at hf
          simp only [Prod.mk.injEq] at hf
          obtain ⟨htr, _⟩ := hf
          rw [← htr]
          have hfrt : isRefStr "FETCH_HEAD" = true := by decide
          have hfr : refsWriteEv Tgt.loc "FETCH_HEAD"
              (nh ++ " branch " ++ branch ++ " of " ++ url) =
              [⟨Tgt.loc, Act.fileW "FETCH_HEAD" (nh ++ " branch " ++ branch ++ " of " ++ url)⟩] := by
            simp [refsWriteEv, hfrt]
          rw [hfr, applyEvs_append]
          simp [applyEvs, applyEv, applyAct, filesRead, lookupS_setKV]

/-- Witness for C7: the first fetch of the counterexample scenario indeed
records exactly the feat record. -/
theorem claim_C7_witness :
    filesRead WF1.loc "FETCH_HEAD" = some (ch2 ++ " branch feat of ./p2") := by
  obtain ⟨nh, hnh, hfile⟩ := claim_C7 WF "origin" "feat" "./p2" peer2
    (fetchOp WF (some "origin") (some "feat")).1 "From ./p2\nCount 4\nfeat -> origin/feat\n"
    (by decide) (by decide) (by decide)
  have hch2 : nh = ch2 := by
    have h2 : refsHash peer2 "feat" = some ch2 := by decide
    rw [hnh] at h2
    exact Option.some.inj h2
  rw [hch2] at hfile
  rw [show WF1 = applyEvs WF (fetchOp WF (some "origin") (some "feat")).1 from rfl, hfile]
  decide

/-- A bracketed commit report is never the up-to-date message. -/
theorem bracket_ne (x : String) : ("[" ++ x) ≠ "Already up-to-date" :=
  str_ne_of_head (show ("[" ++ x).data.head? = some '[' from rfl)
    (show ("Already up-to-date").data.head? = some 'A' from rfl) (by decide)

/-- commit never returns the string "Already up-to-date": its successful
returns are the merge-completion message or a bracketed report. -/
theorem commitOp_ne_autd (w : World) (mo : Option String) :
    (commitOp w mo).2 ≠ Except.ok "Already up-to-date" := by
  intro hcon
  simp only [commitOp] at hcon
  split at hcon
  · simp at hcon
  · split at hcon
    · simp at hcon
    · split at hcon
      · simp at hcon
      · split at hcon
        · simp at hcon
        · split at hcon
          · exact absurd (Except.ok.inj hcon) (by decide)
          · exact absurd (Except.ok.inj hcon) (bracket_ne _)

/-- Claim C2: for a receiver commit (HEAD of an attached, non-bare repo)
and a ref resolving to a giver commit, merge returns the informational
"Already up-to-date" — and performs no effect at all — exactly when the
receiver equals the giver or the giver is an ancestor of the receiver. -/
theorem claim_C2 (w : World) (ref : String) (rc g t' : String) (ps : List String) (cm : String)
    (hb : w.loc.bare = false)
    (hdet : isHeadDetached w.loc = false)
    (hrecv : refsHash w.loc "HEAD" = some rc)
    (hgiv : refsHash w.loc ref = some g)
    (hcommit : lookupS w.loc.objects g = some (Obj.commit t' ps cm)) :
    ((mergeOp w ref).2 = Except.ok "Already up-to-date" ↔
      (rc = g ∨ isAncestorB w.loc.objects g rc = true)) ∧
    ((rc = g ∨ isAncestorB w.loc.objects g rc = true) →
      mergeOp w ref = ([], Except.ok "Already up-to-date")) := by
  by_cases hcond : rc = g ∨ isAncestorB w.loc.objects g rc = true
  · have hut : isUpToDate w.loc.objects (some rc) (some g) = true := by
      rcases hcond with hrg | hanc
      · simp [isUpToDate, hrg]
      · simp [isUpToDate, hanc]
    have hres : mergeOp w ref = ([], Except.ok "Already up-to-date") := by
      simp [mergeOp, hb, hdet, hrecv, hgiv, hcommit, objType, hut]
    exact ⟨⟨fun _ => hcond, fun _ => by rw [hres]⟩, fun _ => hres⟩
  · rw [not_or] at hcond
    obtain ⟨hrc, hanc⟩ := hcond
    have hancf : isAncestorB w.loc.objects g rc = false := by
      cases hax : isAncestorB w.loc.objects g rc
      · rfl
      · exact absurd hax hanc
    have hut : isUpToDate w.loc.objects (some rc) (some g) = false := by
      simp [isUpToDate, hrc, hancf]
    have hneres : (mergeOp w ref).2 ≠ Except.ok "Already up-to-date" := by
      intro hcon
      simp only [mergeOp, hb, hdet, hrecv, hgiv, hcommit, objType, hut, Bool.false_eq_true,
        if_false, Option.isNone_some, Option.getD_some, Option.some.injEq, Bool.false_or,
        reduceCtorEq, Option.map_some', Bool.or_self, ite_false] at hcon
      cases h1 : (changedFilesCommitWouldOverwrite w.loc g).isEmpty with
      | false => simp [h1] at hcon
      | true =>
          simp only [h1, Bool.not_true, Bool.false_eq_true, if_false] at hcon
          cases h2 : canFastForward w.loc.objects (some rc) (some g) with
          | true => simp [h2] at hcon
          | false =>
              simp only [h2, Bool.false_eq_true, if_false] at hcon
              cases h3 : hasConflicts
                  (applyEvs w (writeNonFastForwardMergeEv w rc g ref)).loc rc g with
              | true => simp [h3] at hcon
              | false =>
                  simp only [h3, Bool.false_eq_true, if_false] at hcon
                  exact commitOp_ne_autd _ _ (by exact hcon)
    refine ⟨⟨fun hcon => absurd hcon hneres, fun hcnd => absurd hcnd ?_⟩,
      fun hcnd => absurd hcnd ?_⟩ <;>
      exact fun hx => (by rcases hx with h1 | h2; exact hrc h1; exact hanc h2 : False)

/-- Witness for C2: merging master into itself in the fixture world is an
up-to-date no-op. -/
theorem claim_C2_witness :
    W0.loc.bare = false ∧ isHeadDetached W0.loc = false ∧
    refsHash W0.loc "HEAD" = some ch ∧ refsHash W0.loc "master" = some ch ∧
    lookupS W0.loc.objects ch = some (Obj.commit th [] "c1") ∧
    mergeOp W0 "master" = ([], Except.ok "Already up-to-date") :=
  ⟨by decide, by decide, by decide, by decide, by decide,
   (claim_C2 W0 "master" ch ch th [] "c1" (by decide) (by decide) (by decide)
     (by decide) (by decide)).2 (Or.inl rfl)⟩

/-- A character allowed in branch names is not a space. -/
theorem validChar_ne_space {c : Char} (h : validChar c = true) : c ≠ ' ' := by
  intro hc
  subst hc
  simp [validChar] at h

/-- A prefix pattern starting with a space fails against a cons with a
different head. -/
theorem isPrefixOf_head_mismatch {p l : List Char} {c d : Char} (hp : c ≠ d) :
    ((c :: p).isPrefixOf (d :: l)) = false := by
  simp [List.isPrefixOf, hp]

/-- A pattern containing a space is no prefix of a space-free list. -/
theorem isPrefixOf_space_spacefree {x : List Char} :
    ∀ (a u : List Char), (∀ e ∈ u, e ≠ ' ') → ((a ++ ' ' :: x).isPrefixOf u) = false := by
  intro a
  induction a with
  | nil =>
      intro u hu
      cases u with
      | nil => rfl
      | cons d u' =>
          exact isPrefixOf_head_mismatch (Ne.symm (hu d (by simp)))
  | cons c a' ih =>
      intro u hu
      cases u with
      | nil => rfl
      | cons d u' =>
          by_cases hcd : c = d
          · subst hcd
            have := ih u' (fun e he => hu e (by simp [he]))
            simp [List.isPrefixOf, this]
          · exact isPrefixOf_head_mismatch hcd

/-- A pattern starting with a space is no prefix of a list starting with a
nonempty space-free segment. -/
theorem isPrefixOf_space_seg {pt l b : List Char}
    (hb : b ≠ []) (hbs : ∀ e ∈ b, e ≠ ' ') :
    ((' ' :: pt).isPrefixOf (b ++ l)) = false := by
  cases b with
  | nil => exact absurd rfl hb
  | cons d b' => exact isPrefixOf_head_mismatch (Ne.symm (hbs d (by simp)))

/-- A pattern starting with a space never occurs in a space-free list. -/
theorem occursFromOne_spacefree (pt : List Char) :
    ∀ (l : List Char), (∀ e ∈ l, e ≠ ' ') → occursFromOne (' ' :: pt) l = false := by
  intro l
  induction l with
  | nil => intro _; rfl
  | cons c rest ih =>
      intro hl
      have h1 : ((' ' :: pt).isPrefixOf rest) = false := by
        have : (([] : List Char) ++ ' ' :: pt).isPrefixOf rest = false :=
          isPrefixOf_space_spacefree [] rest (fun e he => hl e (by simp [he]))
        simpa using this
      have h2 := ih (fun e he => hl e (by simp [he]))
      simp [occursFromOne, h1, h2]

/-- Occurrences of a space-led pattern skip over a leading nonempty
space-free segment. -/
theorem occursFromOne_skip (pt : List Char) :
    ∀ (w l : List Char), w ≠ [] → (∀ e ∈ w, e ≠ ' ') →
      occursFromOne (' ' :: pt) (w ++ l) =
        ((' ' :: pt).isPrefixOf l || occursFromOne (' ' :: pt) l) := by
  intro w
  induction w with
  | nil => intro l hw _; exact absurd rfl hw
  | cons c w' ih =>
      intro l _ hws
      cases w' with
      | nil => simp [occursFromOne]
      | cons d w'' =>
          have h1 : ((' ' :: pt).isPrefixOf ((d :: w'') ++ l)) = false :=
            isPrefixOf_space_seg (by simp) (fun e he => hws e (by simp [he]))
          have h2 := ih l (by simp) (fun e he => hws e (by simp [he]))
          have h0 : occursFromOne (' ' :: pt) ((c :: (d :: w'')) ++ l) =
              ((' ' :: pt).isPrefixOf ((d :: w'') ++ l) ||
                occursFromOne (' ' :: pt) ((d :: w'') ++ l)) := rfl
          rw [h0, h1, Bool.false_or]
          exact h2

/-- Prefix matching of space-delimited segments: a segment pattern is a
prefix of a segment list exactly when the space-free segments agree and the
remainders match. -/
theorem prefix_seg {x y : List Char} :
    ∀ (a b : List Char), (∀ e ∈ a, e ≠ ' ') → (∀ e ∈ b, e ≠ ' ') →
      (((a ++ ' ' :: x).isPrefixOf (b ++ ' ' :: y)) = true ↔
        (a = b ∧ x.isPrefixOf y = true)) := by
  intro a
  induction a with
  | nil =>
      intro b _ hbs
      cases b with
      | nil => simp [List.isPrefixOf]
      | cons d b' =>
          have h1 : ((' ' :: x).isPrefixOf ((d :: b') ++ ' ' :: y)) = false :=
            isPrefixOf_space_seg (by simp) hbs
          simp [h1]
          exact fun hsd => absurd hsd.symm (hbs d (by simp))
  | cons c a' ih =>
      intro b has hbs
      cases b with
      | nil =>
          have h1 : (((c :: a') ++ ' ' :: x).isPrefixOf (' ' :: y)) = false := by
            simp only [List.cons_append]
            exact isPrefixOf_head_mismatch (has c (by simp))
          simp [h1]
          exact fun hc => absurd hc (has c (by simp))
      | cons d b' =>
          by_cases hcd : c = d
          · subst hcd
            have := ih b' (fun e he => has e (by simp [he])) (fun e he => hbs e (by simp [he]))
            simp [List.isPrefixOf, this]
          · have h1 : (((c :: a') ++ ' ' :: x).isPrefixOf ((d :: b') ++ ' ' :: y)) = false := by
              simp only [List.cons_append]
              exact isPrefixOf_head_mismatch hcd
            simp [h1, hcd]

/-- The FETCH_HEAD line-match analysis: the pattern " branch B of" occurs
at a positive position of the line "H branch BR of U" (H, BR, U, B
space-free, H and BR nonempty) exactly when B is BR, or in the degenerate
regex collision where BR is literally "branch", B is literally "of" and U
begins with "of". -/
theorem match_line_chr (H BR U B : List Char)
    (hH : H ≠ []) (hHs : ∀ e ∈ H, e ≠ ' ')
    (hBR : BR ≠ []) (hBRs : ∀ e ∈ BR, e ≠ ' ')
    (hUs : ∀ e ∈ U, e ≠ ' ')
    (_hBs : ∀ e ∈ B, e ≠ ' ') :
    (occursFromOne (' ' :: ("branch".data ++ (' ' :: (B ++ (' ' :: ['o', 'f'])))))
        (H ++ (' ' :: ("branch".data ++ (' ' :: (BR ++ (' ' :: (['o', 'f'] ++ (' ' :: U)))))))) = true)
    ↔ (B = BR ∨ (BR = "branch".data ∧ B = ['o', 'f'] ∧ (['o', 'f'].isPrefixOf U) = true)) := by
  have hbrch : ∀ e ∈ ("branch".data : List Char), e ≠ ' ' := by decide
  have hof : ∀ e ∈ (['o', 'f'] : List Char), e ≠ ' ' := by decide
  rw [occursFromOne_skip _ H _ hH hHs]
  have e1 : ((' ' :: ("branch".data ++ (' ' :: (B ++ (' ' :: ['o', 'f']))))).isPrefixOf
      (' ' :: ("branch".data ++ (' ' :: (BR ++ (' ' :: (['o', 'f'] ++ (' ' :: U)))))))) =
      (("branch".data ++ (' ' :: (B ++ (' ' :: ['o', 'f'])))).isPrefixOf
        ("branch".data ++ (' ' :: (BR ++ (' ' :: (['o', 'f'] ++ (' ' :: U))))))) := by
    simp [List.isPrefixOf]
  rw [e1]
  have e2 : occursFromOne (' ' :: ("branch".data ++ (' ' :: (B ++ (' ' :: ['o', 'f'])))))
      (' ' :: ("branch".data ++ (' ' :: (BR ++ (' ' :: (['o', 'f'] ++ (' ' :: U))))))) =
      ((' ' :: ("branch".data ++ (' ' :: (B ++ (' ' :: ['o', 'f']))))).isPrefixOf
        ("branch".data ++ (' ' :: (BR ++ (' ' :: (['o', 'f'] ++ (' ' :: U)))))) ||
       occursFromOne (' ' :: ("branch".data ++ (' ' :: (B ++ (' ' :: ['o', 'f'])))))
        ("branch".data ++ (' ' :: (BR ++ (' ' :: (['o', 'f'] ++ (' ' :: U))))))) := by
    simp [occursFromOne]
  rw [e2]
  have e3 : ((' ' :: ("branch".data ++ (' ' :: (B ++ (' ' :: ['o', 'f']))))).isPrefixOf
      ("branch".data ++ (' ' :: (BR ++ (' ' :: (['o', 'f'] ++ (' ' :: U))))))) = false :=
    isPrefixOf_space_seg (by decide) hbrch
  rw [e3]
  rw [occursFromOne_skip _ ("branch".data) _ (by decide) hbrch]
  have e4 : ((' ' :: ("branch".data ++ (' ' :: (B ++ (' ' :: ['o', 'f']))))).isPrefixOf
      (' ' :: (BR ++ (' ' :: (['o', 'f'] ++ (' ' :: U)))))) =
      (("branch".data ++ (' ' :: (B ++ (' ' :: ['o', 'f'])))).isPrefixOf
        (BR ++ (' ' :: (['o', 'f'] ++ (' ' :: U))))) := by
    simp [List.isPrefixOf]
  rw [e4]
  have e5 : occursFromOne (' ' :: ("branch".data ++ (' ' :: (B ++ (' ' :: ['o', 'f'])))))
      (' ' :: (BR ++ (' ' :: (['o', 'f'] ++ (' ' :: U))))) =
      ((' ' :: ("branch".data ++ (' ' :: (B ++ (' ' :: ['o', 'f']))))).isPrefixOf
        (BR ++ (' ' :: (['o', 'f'] ++ (' ' :: U)))) ||
       occursFromOne (' ' :: ("branch".data ++ (' ' :: (B ++ (' ' :: ['o', 'f'])))))
        (BR ++ (' ' :: (['o', 'f'] ++ (' ' :: U))))) := by
    simp [occursFromOne]
  rw [e5]
  have e6 : ((' ' :: ("branch".data ++ (' ' :: (B ++ (' ' :: ['o', 'f']))))).isPrefixOf
      (BR ++ (' ' :: (['o', 'f'] ++ (' ' :: U))))) = false :=
    isPrefixOf_space_seg hBR hBRs
  rw [e6]
  rw [occursFromOne_skip _ BR _ hBR hBRs]
  have e7 : ((' ' :: ("branch".data ++ (' ' :: (B ++ (' ' :: ['o', 'f']))))).isPrefixOf
      (' ' :: (['o', 'f'] ++ (' ' :: U)))) =
      (("branch".data ++ (' ' :: (B ++ (' ' :: ['o', 'f'])))).isPrefixOf
        (['o', 'f'] ++ (' ' :: U))) := by
    simp [List.isPrefixOf]
  rw [e7]
  have e8 : occursFromOne (' ' :: ("branch".data ++ (' ' :: (B ++ (' ' :: ['o', 'f'])))))
      (' ' :: (['o', 'f'] ++ (' ' :: U))) =
      ((' ' :: ("branch".data ++ (' ' :: (B ++ (' ' :: ['o', 'f']))))).isPrefixOf
        (['o', 'f'] ++ (' ' :: U)) ||
       occursFromOne (' ' :: ("branch".data ++ (' ' :: (B ++ (' ' :: ['o', 'f'])))))
        (['o', 'f'] ++ (' ' :: U))) := by
    simp [occursFromOne]
  rw [e8]
  have e9 : ((' ' :: ("branch".data ++ (' ' :: (B ++ (' ' :: ['o', 'f']))))).isPrefixOf
      (['o', 'f'] ++ (' ' :: U))) = false :=
    isPrefixOf_space_seg (by decide) hof
  rw [e9]
  rw [occursFromOne_skip _ ['o', 'f'] _ (by decide) hof]
  have e10 : ((' ' :: ("branch".data ++ (' ' :: (B ++ (' ' :: ['o', 'f']))))).isPrefixOf
      (' ' :: U)) = (("branch".data ++ (' ' :: (B ++ (' ' :: ['o', 'f'])))).isPrefixOf U) := by
    simp [List.isPrefixOf]
  rw [e10]
  have e11 : (("branch".data ++ (' ' :: (B ++ (' ' :: ['o', 'f'])))).isPrefixOf U) = false :=
    isPrefixOf_space_spacefree _ U hUs
  rw [e11]
  have e11b : occursFromOne (' ' :: ("branch".data ++ (' ' :: (B ++ (' ' :: ['o', 'f'])))))
      (' ' :: U) =
      ((' ' :: ("branch".data ++ (' ' :: (B ++ (' ' :: ['o', 'f']))))).isPrefixOf U ||
       occursFromOne (' ' :: ("branch".data ++ (' ' :: (B ++ (' ' :: ['o', 'f']))))) U) := by
    simp [occursFromOne]
  rw [e11b]
  have e11c : ((' ' :: ("branch".data ++ (' ' :: (B ++ (' ' :: ['o', 'f']))))).isPrefixOf U) =
      false := by
    have : (([] : List Char) ++
        ' ' :: ("branch".data ++ (' ' :: (B ++ (' ' :: ['o', 'f']))))).isPrefixOf U = false :=
      isPrefixOf_space_spacefree _ U hUs
    simpa using this
  rw [e11c]
  have e12 : occursFromOne (' ' :: ("branch".data ++ (' ' :: (B ++ (' ' :: ['o', 'f']))))) U =
      false := occursFromOne_spacefree _ U hUs
  rw [e12]
  have p3 : (("branch".data ++ (' ' :: (B ++ (' ' :: ['o', 'f'])))).isPrefixOf
      (['o', 'f'] ++ (' ' :: U))) = false := by
    by_cases hx : (("branch".data ++ (' ' :: (B ++ (' ' :: ['o', 'f'])))).isPrefixOf
        (['o', 'f'] ++ (' ' :: U))) = true
    · exfalso
      obtain ⟨h1, _⟩ := (prefix_seg "branch".data ['o', 'f'] hbrch hof).mp hx
      exact absurd h1 (by decide)
    · exact Bool.eq_false_iff.mpr hx
  rw [p3]
  have p1 : (("branch".data ++ (' ' :: (B ++ (' ' :: ['o', 'f'])))).isPrefixOf
      ("branch".data ++ (' ' :: (BR ++ (' ' :: (['o', 'f'] ++ (' ' :: U))))))) = true ↔
      (B = BR) := by
    rw [prefix_seg "branch".data "branch".data hbrch hbrch]
    have inner : ((B ++ (' ' :: ['o', 'f'])).isPrefixOf
        (BR ++ (' ' :: (['o', 'f'] ++ (' ' :: U))))) = true ↔ (B = BR) := by
      rw [prefix_seg B BR _hBs hBRs]
      have hofp : ((['o', 'f'] : List Char).isPrefixOf (['o', 'f'] ++ (' ' :: U))) = true := by
        rw [List.isPrefixOf_iff_prefix]
        exact List.prefix_append _ _
      rw [hofp]
      simp
    constructor
    · rintro ⟨_, hin⟩
      exact inner.mp hin
    · intro hbb
      exact ⟨rfl, inner.mpr hbb⟩
  have p2 : (("branch".data ++ (' ' :: (B ++ (' ' :: ['o', 'f'])))).isPrefixOf
      (BR ++ (' ' :: (['o', 'f'] ++ (' ' :: U))))) = true ↔
      (BR = "branch".data ∧ B = ['o', 'f'] ∧ (['o', 'f'].isPrefixOf U) = true) := by
    rw [prefix_seg "branch".data BR hbrch hBRs]
    have inner : ((B ++ (' ' :: ['o', 'f'])).isPrefixOf (['o', 'f'] ++ (' ' :: U))) = true ↔
        (B = ['o', 'f'] ∧ (['o', 'f'].isPrefixOf U) = true) := by
      rw [prefix_seg B ['o', 'f'] _hBs hof]
    constructor
    · rintro ⟨hbb, hin⟩
      exact ⟨hbb.symm, inner.mp hin⟩
    · rintro ⟨hbb, hin⟩
      exact ⟨hbb.symm, inner.mpr hin⟩
  simp only [Bool.or_false, Bool.false_or, Bool.or_eq_true]
  rw [p1, p2]

/-- A character allowed in branch names is not a newline. -/
theorem validChar_ne_nl {c : Char} (h : validChar c = true) : c ≠ '\n' := by
  intro hc
  subst hc
  simp [validChar] at h

/-- Splitting at a separator that does not occur yields the single
segment. -/
theorem splitCh_no_sep {sep : Char} :
    ∀ (l : List Char), (∀ e ∈ l, e ≠ sep) → splitCh sep l = [l] := by
  intro l
  induction l with
  | nil => intro _; rfl
  | cons c rest ih =>
      intro hl
      have hc : c ≠ sep := hl c (by simp)
      have hr := ih (fun e he => hl e (by simp [he]))
      simp [splitCh, hc, hr]

/-- Counterexample to the FETCH_HEAD clause of C3 as stated: on branch
"of", with FETCH_HEAD recording a fetch of the branch named "branch" from
the url "ofpeer", refs.hash("FETCH_HEAD") returns the recorded hash even
though the fetched branch differs from the current branch — the regex
`^.+ branch of of` also matches inside the record. -/
theorem claim_C3_counterexample :
    headBranchName locC3 = some "of" ∧
    filesRead locC3 "FETCH_HEAD" = some "42 branch branch of ofpeer" ∧
    objectsExists locC3 "FETCH_HEAD" = false ∧
    refsHash locC3 "FETCH_HEAD" = some "42" :=
  ⟨by decide, by decide, by decide, by decide⟩

/-- Claim C3 (amended): refs.hash returns an existing object hash as-is;
otherwise it terminal-resolves the name and returns the stored content of
the terminal ref — none when that ref does not exist; when the terminal is
FETCH_HEAD it matches the per-branch records against the current branch
name by a substring pattern, so for a well-formed single-record FETCH_HEAD
(and a current branch name avoiding the literal-collision "of" case) it
returns the recorded hash when the fetched branch is the current branch and
none when it differs. -/
theorem claim_C3 (r : Repo) (s b h br u : String) :
    (objectsExists r s = true → refsHash r s = some s) ∧
    (objectsExists r s = false → terminalRef r s ≠ "FETCH_HEAD" →
      refsExists r (terminalRef r s) = true →
      refsHash r s = filesRead r (terminalRef r s)) ∧
    (objectsExists r s = false → terminalRef r s ≠ "FETCH_HEAD" →
      refsExists r (terminalRef r s) = false → refsHash r s = none) ∧
    (objectsExists r "FETCH_HEAD" = false →
      headBranchName r = some b →
      filesRead r "FETCH_HEAD" = some (h ++ " branch " ++ br ++ " of " ++ u) →
      h.data ≠ [] → (∀ e ∈ h.data, e ≠ ' ' ∧ e ≠ '\n') →
      validNameL br.data = true →
      (∀ e ∈ u.data, e ≠ ' ' ∧ e ≠ '\n') →
      validNameL b.data = true →
      b ≠ "of" →
      refsHash r "FETCH_HEAD" = (if br = b then some h else none)) := by
  refine ⟨?_, ?_, ?_, ?_⟩
  · intro ho
    simp [refsHash, ho]
  · intro ho ht hex
    simp [refsHash, ho, ht, hex]
  · intro ho ht hex
    simp [refsHash, ho, ht, hex]
  · intro ho hbn hfile hh1 hh2 hbrv hu2 hbv hbo
    have hterm : terminalRef r "FETCH_HEAD" = "FETCH_HEAD" := by
      have h2 : isRefStr "FETCH_HEAD" = true := by decide
      have h3 : ¬(("FETCH_HEAD" : String) = "HEAD") := by decide
      simp [terminalRef, h2, h3]
    have hres : refsHash r "FETCH_HEAD" =
        fetchHeadBranchToMerge (h ++ " branch " ++ br ++ " of " ++ u) b := by
      simp [refsHash, ho, hterm, hfile, hbn]
    rw [hres]
    have hdec : (h ++ " branch " ++ br ++ " of " ++ u).data
        = h.data ++ (' ' :: ("branch".data ++ (' ' :: (br.data ++
            (' ' :: (['o', 'f'] ++ (' ' :: u.data))))))) := by
      show (((h.data ++ " branch ".data) ++ br.data) ++ " of ".data) ++ u.data = _
      simp [List.append_assoc]
    have hbrchnl : ∀ x ∈ ("branch".data : List Char), x ≠ '\n' := by decide
    have hofnl : ∀ x ∈ (['o', 'f'] : List Char), x ≠ '\n' := by decide
    have hbrv' := hbrv
    simp only [validNameL, Bool.and_eq_true, List.all_eq_true] at hbrv'
    have hbv' := hbv
    simp only [validNameL, Bool.and_eq_true, List.all_eq_true] at hbv'
    have hnn : ∀ e ∈ (h ++ " branch " ++ br ++ " of " ++ u).data, e ≠ '\n' := by
      intro e he
      rw [hdec] at he
      rcases List.mem_append.mp he with hA | hB
      · exact (hh2 e hA).2
      rcases List.mem_cons.mp hB with rfl | hB
      · decide
      rcases List.mem_append.mp hB with hA | hB
      · exact hbrchnl e hA
      rcases List.mem_cons.mp hB with rfl | hB
      · decide
      rcases List.mem_append.mp hB with hA | hB
      · exact validChar_ne_nl (hbrv'.2 e hA)
      rcases List.mem_cons.mp hB with rfl | hB
      · decide
      rcases List.mem_append.mp hB with hA | hB
      · exact hofnl e hA
      rcases List.mem_cons.mp hB with rfl | hB
      · decide
      · exact (hu2 e hB).2
    have hne : (h ++ " branch " ++ br ++ " of " ++ u).data ≠ [] := by
      rw [hdec]
      simp
    have hlines : linesOf (h ++ " branch " ++ br ++ " of " ++ u) =
        [(h ++ " branch " ++ br ++ " of " ++ u).data] := by
      unfold linesOf
      rw [splitCh_no_sep _ hnn]
      simp [hne]
    have hpat : (" branch " ++ b ++ " of").data =
        ' ' :: ("branch".data ++ (' ' :: (b.data ++ (' ' :: ['o', 'f'])))) := rfl
    have hHs : ∀ e ∈ h.data, e ≠ ' ' := fun e he => (hh2 e he).1
    have hUs : ∀ e ∈ u.data, e ≠ ' ' := fun e he => (hu2 e he).1
    have hBRs : ∀ e ∈ br.data, e ≠ ' ' := fun e he => validChar_ne_space (hbrv'.2 e he)
    have hBs : ∀ e ∈ b.data, e ≠ ' ' := fun e he => validChar_ne_space (hbv'.2 e he)
    have hBRne : br.data ≠ [] := by
      intro hx
      rw [hx] at hbrv'
      simp at hbrv'
    have hmatch := match_line_chr h.data br.data u.data b.data hh1 hHs hBRne hBRs hUs hBs
    by_cases hbrb : br = b
    · have htrue : occursFromOne ((" branch " ++ b ++ " of").data)
          ((h ++ " branch " ++ br ++ " of " ++ u).data) = true := by
        rw [hpat, hdec]
        exact hmatch.mpr (Or.inl (congrArg String.data hbrb.symm))
      unfold fetchHeadBranchToMerge
      rw [hlines]
      simp only [List.filter_cons, htrue, if_pos, List.filter_nil, List.head?_cons,
        Option.map_some']
      have hfw : firstWordL ((h ++ " branch " ++ br ++ " of " ++ u).data) = h.data := by
        unfold firstWordL
        rw [hdec]
        exact takeWhile_all_append h.data ' ' _
          (fun c hc => decide_eq_true (hHs c hc)) (by decide)
      rw [hfw, if_pos hbrb]
      rfl
    · have hfalse : occursFromOne ((" branch " ++ b ++ " of").data)
          ((h ++ " branch " ++ br ++ " of " ++ u).data) = false := by
        rw [hpat, hdec]
        apply Bool.eq_false_iff.mpr
        intro hx
        rcases hmatch.mp hx with heq | ⟨_, hcol, _⟩
        · exact hbrb (strExt (heq.symm ▸ rfl))
        · exact hbo (strExt (show b.data = "of".data from hcol))
      unfold fetchHeadBranchToMerge
      rw [hlines]
      simp only [List.filter_cons, hfalse, List.filter_nil]
      simp [hbrb]

/-- Witness for C3: in the fetch world after fetching feat while on
master, FETCH_HEAD holds the feat record and refs.hash("FETCH_HEAD")
returns none; and an existing object hash is returned as-is. -/
theorem claim_C3_witness :
    objectsExists WF1.loc "FETCH_HEAD" = false ∧
    headBranchName WF1.loc = some "master" ∧
    filesRead WF1.loc "FETCH_HEAD" = some (ch2 ++ " branch " ++ "feat" ++ " of " ++ "./p2") ∧
    refsHash WF1.loc "FETCH_HEAD" = none ∧
    objectsExists WF1.loc ch2 = true ∧ refsHash WF1.loc ch2 = some ch2 := by
  have hp := claim_C3 WF1.loc "FETCH_HEAD" "master" ch2 "feat" "./p2"
  have h4 := hp.2.2.2 (by decide) (by decide) (by decide) (by decide) (by decide)
    (by decide) (by decide) (by decide) (by decide)
  refine ⟨by decide, by decide, by decide, ?_, by decide, ?_⟩
  · rw [h4]
    decide
  · have hp2 := claim_C3 WF1.loc ch2 "master" ch2 "feat" "./p2"
    exact hp2.1 (by decide)

/- ------------------------------------------------------------------ -/
/- Effect-ordering lemmas.                                             -/
/- ------------------------------------------------------------------ -/

/-- Object writes are object events. -/
theorem isObjEv_objW (t : Tgt) (o : Obj) : isObjEv ⟨t, Act.objW o⟩ = true := rfl

/-- An object event is never a ref update. -/
theorem isRefUpd_of_objEv {e : Ev} (h : isObjEv e = true) : isRefUpd e = false := by
  obtain ⟨tgt, act⟩ := e
  cases act <;> first | rfl | simp [isObjEv] at h

/-- The ref-update test on a file write depends only on the name. -/
theorem isRefUpd_fileW (t : Tgt) (n c : String) :
    isRefUpd ⟨t, Act.fileW n c⟩ =
      (decide (n = "HEAD") || (("refs/".data).isPrefixOf n.data)) := rfl

/-- Events of a guarded ref write are never object writes. -/
theorem refsWriteEv_not_obj (t : Tgt) (n c : String) :
    ∀ e ∈ refsWriteEv t n c, isObjEv e = false := by
  intro e he
  unfold refsWriteEv at he
  split at he
  · simp at he; subst he; rfl
  · simp at he

/-- Events of a guarded ref removal are never object writes. -/
theorem refsRmEv_not_obj (t : Tgt) (n : String) :
    ∀ e ∈ refsRmEv t n, isObjEv e = false := by
  intro e he
  unfold refsRmEv at he
  split at he
  · simp at he; subst he; rfl
  · simp at he

/-- Events of a guarded ref removal are never ref updates (they remove,
rather than write, a file). -/
theorem refsRmEv_not_refUpd (t : Tgt) (n : String) :
    ∀ e ∈ refsRmEv t n, isRefUpd e = false := by
  intro e he
  unfold refsRmEv at he
  split at he
  · simp at he; subst he; rfl
  · simp at he

/-- A trace with no ref update trivially orders objects before refs. -/
theorem objsBeforeRefs_of_no_refUpd :
    ∀ (l : List Ev), (∀ e ∈ l, isRefUpd e = false) → objsBeforeRefs l = true := by
  intro l
  induction l with
  | nil => intro _; rfl
  | cons e rest ih =>
      intro h
      have he := h e (by simp)
      simp [objsBeforeRefs, he]
      exact ih (fun x hx => h x (by simp [hx]))

/-- A trace with no object write trivially orders objects before refs. -/
theorem objsBeforeRefs_of_no_obj :
    ∀ (l : List Ev), (∀ e ∈ l, isObjEv e = false) → objsBeforeRefs l = true := by
  intro l
  induction l with
  | nil => intro _; rfl
  | cons e rest ih =>
      intro h
      by_cases hr : isRefUpd e = true
      · simp [objsBeforeRefs, hr, List.all_eq_true]
        intro x hx
        simp [h x (by simp [hx])]
      · simp [objsBeforeRefs, hr]
        exact ih (fun x hx => h x (by simp [hx]))

/-- Object writes followed by non-object events order objects before
refs. -/
theorem objsBeforeRefs_split :
    ∀ (l1 l2 : List Ev), (∀ e ∈ l1, isRefUpd e = false) →
      (∀ e ∈ l2, isObjEv e = false) → objsBeforeRefs (l1 ++ l2) = true := by
  intro l1
  induction l1 with
  | nil => intro l2 _ h2; exact objsBeforeRefs_of_no_obj l2 h2
  | cons e rest ih =>
      intro l2 h1 h2
      have he := h1 e (by simp)
      simp only [List.cons_append, objsBeforeRefs, he, Bool.false_eq_true, if_false]
      exact ih l2 (fun x hx => h1 x (by simp [hx])) h2

/-- Ref-update validity splits over trace concatenation. -/
theorem refUpdsValid_append (l1 l2 : List Ev) : ∀ (w : World),
    refUpdsValid w (l1 ++ l2) =
      (refUpdsValid w l1 && refUpdsValid (applyEvs w l1) l2) := by
  induction l1 with
  | nil => intro w; simp [refUpdsValid, applyEvs]
  | cons e rest ih =>
      intro w
      have h1 : refUpdsValid w ((e :: rest) ++ l2)
          = ((!isRefUpd e || objectsExists (repoAt w e.tgt) (evHash e)) &&
             refUpdsValid (applyEv w e) (rest ++ l2)) := rfl
      have h2 : refUpdsValid w (e :: rest)
          = ((!isRefUpd e || objectsExists (repoAt w e.tgt) (evHash e)) &&
             refUpdsValid (applyEv w e) rest) := rfl
      rw [h1, ih (applyEv w e), h2, Bool.and_assoc]
      rfl

/-- A trace with no ref update is vacuously ref-valid. -/
theorem refUpdsValid_of_no_refUpd :
    ∀ (l : List Ev), (∀ e ∈ l, isRefUpd e = false) →
      ∀ (w : World), refUpdsValid w l = true := by
  intro l
  induction l with
  | nil => intro _ w; rfl
  | cons e rest ih =>
      intro h w
      have he := h e (by simp)
      simp [refUpdsValid, he]
      exact ih (fun x hx => h x (by simp [hx])) (applyEv w e)

/-- A single guarded ref write to a hash present in the targeted store is
ref-valid. -/
theorem refUpdsValid_write (w : World) (t : Tgt) (name hsh : String)
    (h : objectsExists (repoAt w t) hsh = true) :
    refUpdsValid w (refsWriteEv t name hsh) = true := by
  unfold refsWriteEv
  split
  · simp [refUpdsValid, evHash, h]
  · rfl

/-- Every event of fetch's object transfer is an object write. -/
theorem copyFromPeerEvs_obj (p : Repo) : ∀ e ∈ copyFromPeerEvs p, isObjEv e = true := by
  intro e he
  simp only [copyFromPeerEvs, List.mem_map] at he
  obtain ⟨ko, _, rfl⟩ := he
  rfl

/-- Every event of push's object transfer is an object write. -/
theorem copyToPeerEvs_obj (w : World) (url : String) :
    ∀ e ∈ copyToPeerEvs w url, isObjEv e = true := by
  intro e he
  simp only [copyToPeerEvs, List.mem_map] at he
  obtain ⟨ko, _, rfl⟩ := he
  rfl

/-- Every event emitted by the tree writer is an object write. -/
theorem wtListF_evs_obj (t : Tgt) :
    ∀ (fuel : Nat) (l : List (String × TocT)) (e : Ev),
      e ∈ (wtListF t fuel l).1 → isObjEv e = true := by
  intro fuel
  induction fuel with
  | zero => intro l e he; simp [wtListF] at he
  | succ fuel ih =>
      intro l e he
      match l with
      | [] => simp [wtListF] at he
      | (n, TocT.blobRef h) :: rest =>
          simp only [wtListF] at he
          exact ih rest e he
      | (n, TocT.sub inner) :: rest =>
          simp only [wtListF] at he
          rcases List.mem_append.mp he with h1 | h2
          · rcases List.mem_append.mp h1 with h3 | h4
            · exact ih inner e h3
            · simp at h4; subst h4; rfl
          · exact ih rest e h2

/-- Every event emitted by write_tree is an object write. -/
theorem write_treeEv_obj (t : Tgt) (r : Repo) :
    ∀ e ∈ (write_treeEv t r).1, isObjEv e = true := by
  intro e he
  simp only [write_treeEv] at he
  rcases List.mem_append.mp he with h1 | h2
  · exact wtListF_evs_obj t _ _ e h1
  · simp at h2; subst h2; rfl

/-- The trace of update_ref is empty, or a single guarded write of a hash
that exists in the targeted store. -/
theorem update_refOp_trace_shape (w : World) (t : Tgt) (a b : String) :
    (update_refOp w t a b).1 = [] ∨
    ∃ hsh, refsHash (repoAt w t) b = some hsh ∧
      objectsExists (repoAt w t) hsh = true ∧
      (update_refOp w t a b).1 = refsWriteEv t (terminalRef (repoAt w t) a) hsh := by
  cases hh : refsHash (repoAt w t) b with
  | none =>
      left
      simp [update_refOp, hh, objectsExistsO]
  | some hsh =>
      by_cases ho : objectsExists (repoAt w t) hsh = true
      · by_cases ha : isRefStr a = true
        · by_cases hty : objTypeOfRead (repoAt w t) hsh = some "commit"
          · right
            exact ⟨hsh, rfl, ho, by simp [update_refOp, hh, objectsExistsO, ho, ha, hty]⟩
          · left; simp [update_refOp, hh, objectsExistsO, ho, ha, hty]
        · left; simp [update_refOp, hh, objectsExistsO, ho, ha]
      · left; simp [update_refOp, hh, objectsExistsO, ho]

/-- update_ref never writes an object. -/
theorem update_refOp_trace_not_obj (w : World) (t : Tgt) (a b : String) :
    ∀ e ∈ (update_refOp w t a b).1, isObjEv e = false := by
  intro e he
  rcases update_refOp_trace_shape w t a b with h | ⟨hsh, _, _, h⟩
  · rw [h] at he; simp at he
  · rw [h] at he; exact refsWriteEv_not_obj _ _ _ e he

/-- update_ref's trace is ref-valid relative to the state it runs in. -/
theorem update_refOp_trace_valid (w : World) (t : Tgt) (a b : String) :
    refUpdsValid w (update_refOp w t a b).1 = true := by
  rcases update_refOp_trace_shape w t a b with h | ⟨hsh, _, ho, h⟩
  · rw [h]; rfl
  · rw [h]; exact refUpdsValid_write w t _ hsh ho

/-- The FETCH_HEAD record write is not a (hash-holding) ref update. -/
theorem fetch_head_write_not_refUpd (c : String) :
    ∀ e ∈ refsWriteEv Tgt.loc "FETCH_HEAD" c, isRefUpd e = false := by
  intro e he
  unfold refsWriteEv at he
  split at he
  · simp at he; subst he
    rw [isRefUpd_fileW]
    decide
  · simp at he

/-- The trace of commit is empty, the tree-writer trace alone, or the
tree-writer trace, the commit-object write, the HEAD update (run against
exactly the state left by the object writes) and non-object non-ref-update
closing events. -/
theorem commitOp_trace_shape (w : World) (mo : Option String) :
    (commitOp w mo).1 = [] ∨
    (commitOp w mo).1 = (write_treeEv Tgt.loc w.loc).1 ∨
    ∃ cl, (∀ e ∈ cl, isObjEv e = false ∧ isRefUpd e = false) ∧
      (commitOp w mo).1 =
        (((write_treeEv Tgt.loc w.loc).1 ++ [⟨Tgt.loc, Act.objW (commitObjOf w.loc mo)⟩]) ++
          (update_refOp (applyEvs w ((write_treeEv Tgt.loc w.loc).1 ++
              [⟨Tgt.loc, Act.objW (commitObjOf w.loc mo)⟩])) Tgt.loc "HEAD"
            (hashObj (commitObjOf w.loc mo))).1) ++ cl := by
  simp only [commitOp]
  split
  · exact Or.inl rfl
  · split
    · exact Or.inr (Or.inl rfl)
    · split
      · exact Or.inr (Or.inl rfl)
      · split
        · refine Or.inr (Or.inr ⟨[], by simp, ?_⟩)
          simp
        · split
          · refine Or.inr (Or.inr
              ⟨[⟨Tgt.loc, Act.fileRm "MERGE_MSG"⟩] ++ refsRmEv Tgt.loc "MERGE_HEAD", ?_, ?_⟩)
            · intro e he
              rcases List.mem_append.mp he with h1 | h2
              · simp at h1; subst h1; exact ⟨rfl, rfl⟩
              · exact ⟨refsRmEv_not_obj _ _ e h2, refsRmEv_not_refUpd _ _ e h2⟩
            · simp [List.append_assoc]
          · refine Or.inr (Or.inr ⟨[], by simp, ?_⟩)
            simp

/-- Commit orders its effects: all object writes precede the HEAD update,
and the HEAD update points at an object already present in the store. -/
theorem commit_effects_ordered (w : World) (mo : Option String) :
    objsBeforeRefs (commitOp w mo).1 = true ∧ refUpdsValid w (commitOp w mo).1 = true := by
  have hwt : ∀ e ∈ (write_treeEv Tgt.loc w.loc).1, isRefUpd e = false :=
    fun e he => isRefUpd_of_objEv (write_treeEv_obj _ _ e he)
  rcases commitOp_trace_shape w mo with h | h | ⟨cl, hcl, h⟩
  · rw [h]; exact ⟨rfl, rfl⟩
  · rw [h]
    exact ⟨objsBeforeRefs_of_no_refUpd _ hwt, refUpdsValid_of_no_refUpd _ hwt w⟩
  · rw [h]
    have htrC_ref : ∀ e ∈ ((write_treeEv Tgt.loc w.loc).1 ++
        [⟨Tgt.loc, Act.objW (commitObjOf w.loc mo)⟩] : List Ev), isRefUpd e = false := by
      intro e he
      rcases List.mem_append.mp he with h1 | h2
      · exact hwt e h1
      · simp at h2; subst h2; rfl
    constructor
    · rw [List.append_assoc]
      refine objsBeforeRefs_split _ _ htrC_ref ?_
      intro e he
      rcases List.mem_append.mp he with h1 | h2
      · exact update_refOp_trace_not_obj _ _ _ _ e h1
      · exact (hcl e h2).1
    · rw [refUpdsValid_append, refUpdsValid_append]
      simp only [Bool.and_eq_true]
      exact ⟨⟨refUpdsValid_of_no_refUpd _ htrC_ref w, update_refOp_trace_valid _ _ _ _⟩,
        refUpdsValid_of_no_refUpd _ (fun e he => (hcl e he).2) _⟩

/-- The trace of fetch is empty, or the peer-object copy, the
remote-tracking-ref update (run against exactly the state left by the
copy) and a non-object non-ref-update tail. -/
theorem fetchOp_trace_shape (w : World) (ro bo : Option String) :
    (fetchOp w ro bo).1 = [] ∨
    ∃ peer rref nh tl,
      (∀ e ∈ tl, isObjEv e = false ∧ isRefUpd e = false) ∧
      (fetchOp w ro bo).1 =
        (copyFromPeerEvs peer ++
          (update_refOp (applyEvs w (copyFromPeerEvs peer)) Tgt.loc rref nh).1) ++ tl := by
  cases ro with
  | none => cases bo <;> exact Or.inl rfl
  | some remote =>
    cases bo with
    | none => exact Or.inl rfl
    | some branch =>
      cases hlr : lookupS w.loc.remotes remote with
      | none => left; simp [fetchOp, hlr]
      | some url =>
        cases hp : lookupS w.peers url with
        | none => left; simp [fetchOp, hlr, hp]
        | some peer =>
          cases hnh : refsHash peer branch with
          | none => left; simp [fetchOp, hlr, hp, hnh]
          | some nh =>
            cases hu2 : (update_refOp (applyEvs w (copyFromPeerEvs peer)) Tgt.loc
                (toRemoteRef remote branch) nh).2 with
            | error e =>
                refine Or.inr ⟨peer, toRemoteRef remote branch, nh, [], by simp, ?_⟩
                simp [fetchOp, hlr, hp, hnh, hu2]
            | ok u =>
                refine Or.inr ⟨peer, toRemoteRef remote branch, nh,
                  refsWriteEv Tgt.loc "FETCH_HEAD"
                    (nh ++ " branch " ++ branch ++ " of " ++ url), ?_, ?_⟩
                · intro e he
                  exact ⟨refsWriteEv_not_obj _ _ _ e he,
                    fetch_head_write_not_refUpd _ e he⟩
                · simp [fetchOp, hlr, hp, hnh, hu2]

/-- Fetch orders its effects: the object copy precedes the ref update, and
the ref update points at an object already present in the local store. -/
theorem fetch_effects_ordered (w : World) (ro bo : Option String) :
    objsBeforeRefs (fetchOp w ro bo).1 = true ∧ refUpdsValid w (fetchOp w ro bo).1 = true := by
  rcases fetchOp_trace_shape w ro bo with h | ⟨peer, rref, nh, tl, htl, h⟩
  · rw [h]; exact ⟨rfl, rfl⟩
  · rw [h]
    have hcopy_ref : ∀ e ∈ copyFromPeerEvs peer, isRefUpd e = false :=
      fun e he => isRefUpd_of_objEv (copyFromPeerEvs_obj peer e he)
    constructor
    · rw [List.append_assoc]
      refine objsBeforeRefs_split _ _ hcopy_ref ?_
      intro e he
      rcases List.mem_append.mp he with h1 | h2
      · exact update_refOp_trace_not_obj _ _ _ _ e h1
      · exact (htl e h2).1
    · rw [refUpdsValid_append, refUpdsValid_append]
      simp only [Bool.and_eq_true]
      exact ⟨⟨refUpdsValid_of_no_refUpd _ hcopy_ref w, update_refOp_trace_valid _ _ _ _⟩,
        refUpdsValid_of_no_refUpd _ (fun e he => (htl e he).2) _⟩

/-- The trace of push is empty, or the local-object copy, the peer branch
update (run against exactly the state left by the copy) and a tail of
non-object events that is ref-valid in the state it runs in. -/
theorem pushOp_trace_shape (w : World) (ro bo : Option String) (force : Bool) :
    (pushOp w ro bo force).1 = [] ∨
    ∃ url a1 b1 tl,
      (∀ e ∈ tl, isObjEv e = false) ∧
      refUpdsValid (applyEvs w (copyToPeerEvs w url ++
        (update_refOp (applyEvs w (copyToPeerEvs w url)) (Tgt.rem url) a1 b1).1)) tl = true ∧
      (pushOp w ro bo force).1 =
        (copyToPeerEvs w url ++
          (update_refOp (applyEvs w (copyToPeerEvs w url)) (Tgt.rem url) a1 b1).1) ++ tl := by
  cases ro with
  | none => cases bo <;> exact Or.inl rfl
  | some remote =>
    cases bo with
    | none => exact Or.inl rfl
    | some branch =>
      cases hlr : lookupS w.loc.remotes remote with
      | none => left; simp [pushOp, hlr]
      | some url =>
        cases hp : lookupS w.peers url with
        | none => left; simp [pushOp, hlr, hp]
        | some peer =>
          by_cases hco : isCheckedOut peer branch = true
          · left; simp [pushOp, hlr, hp, hco]
          · by_cases hutd : isUpToDate w.loc.objects (refsHash peer branch)
                (refsHash w.loc branch) = true
            · left; simp [pushOp, hlr, hp, hco, hutd]
            · by_cases hff : (!force && !canFastForward w.loc.objects (refsHash peer branch)
                  (refsHash w.loc branch)) = true
              · left; simp [pushOp, hlr, hp, hco, hutd, hff]
              · cases h1 : (update_refOp (applyEvs w (copyToPeerEvs w url)) (Tgt.rem url)
                    (toLocalRef branch) ((refsHash w.loc branch).getD "undefined")).2 with
                | error e =>
                    refine Or.inr ⟨url, toLocalRef branch,
                      (refsHash w.loc branch).getD "undefined", [], by simp, rfl, ?_⟩
                    simp [pushOp, hlr, hp, hco, hutd, hff, h1]
                | ok u =>
                    cases h2 : (update_refOp (applyEvs w (copyToPeerEvs w url ++
                        (update_refOp (applyEvs w (copyToPeerEvs w url)) (Tgt.rem url)
                          (toLocalRef branch)
                          ((refsHash w.loc branch).getD "undefined")).1)) Tgt.loc
                        (toRemoteRef remote branch)
                        ((refsHash w.loc branch).getD "undefined")).2 with
                    | error e =>
                        refine Or.inr ⟨url, toLocalRef branch,
                          (refsHash w.loc branch).getD "undefined",
                          (update_refOp (applyEvs w (copyToPeerEvs w url ++
                            (update_refOp (applyEvs w (copyToPeerEvs w url)) (Tgt.rem url)
                              (toLocalRef branch)
                              ((refsHash w.loc branch).getD "undefined")).1)) Tgt.loc
                            (toRemoteRef remote branch)
                            ((refsHash w.loc branch).getD "undefined")).1,
                          ?_, ?_, ?_⟩
                        · exact update_refOp_trace_not_obj _ _ _ _
                        · exact update_refOp_trace_valid _ _ _ _
                        · simp [pushOp, hlr, hp, hco, hutd, hff, h1, h2]
                    | ok u2 =>
                        refine Or.inr ⟨url, toLocalRef branch,
                          (refsHash w.loc branch).getD "undefined",
                          (update_refOp (applyEvs w (copyToPeerEvs w url ++
                            (update_refOp (applyEvs w (copyToPeerEvs w url)) (Tgt.rem url)
                              (toLocalRef branch)
                              ((refsHash w.loc branch).getD "undefined")).1)) Tgt.loc
                            (toRemoteRef remote branch)
                            ((refsHash w.loc branch).getD "undefined")).1,
                          ?_, ?_, ?_⟩
                        · exact update_refOp_trace_not_obj _ _ _ _
                        · exact update_refOp_trace_valid _ _ _ _
                        · simp [pushOp, hlr, hp, hco, hutd, hff, h1, h2]

/-- Push orders its effects: the object copy precedes both ref updates,
and each ref update points at an object already present in the store it
targets. -/
theorem push_effects_ordered (w : World) (ro bo : Option String) (force : Bool) :
    objsBeforeRefs (pushOp w ro bo force).1 = true ∧
    refUpdsValid w (pushOp w ro bo force).1 = true := by
  rcases pushOp_trace_shape w ro bo force with h | ⟨url, a1, b1, tl, htl, htlv, h⟩
  · rw [h]; exact ⟨rfl, rfl⟩
  · rw [h]
    have hcopy_ref : ∀ e ∈ copyToPeerEvs w url, isRefUpd e = false :=
      fun e he => isRefUpd_of_objEv (copyToPeerEvs_obj w url e he)
    constructor
    · rw [List.append_assoc]
      refine objsBeforeRefs_split _ _ hcopy_ref ?_
      intro e he
      rcases List.mem_append.mp he with h1 | h2
      · exact update_refOp_trace_not_obj _ _ _ _ e h1
      · exact htl e h2
    · rw [refUpdsValid_append, refUpdsValid_append]
      simp only [Bool.and_eq_true]
      exact ⟨⟨refUpdsValid_of_no_refUpd _ hcopy_ref w, update_refOp_trace_valid _ _ _ _⟩, htlv⟩

/-- Claim C9: within every single operation, object writes precede ref
updates — commit, fetch and push each produce a trace in which no object
write follows a ref update (objsBeforeRefs), and, replaying the trace,
every ref update writes a hash whose object is already present in the
store the ref belongs to at that moment (refUpdsValid), so at no
intermediate point does a ref point at an absent object. -/
theorem claim_C9 (w : World) (mo : Option String) (ro bo : Option String) (force : Bool) :
    (objsBeforeRefs (commitOp w mo).1 = true ∧ refUpdsValid w (commitOp w mo).1 = true) ∧
    (objsBeforeRefs (fetchOp w ro bo).1 = true ∧ refUpdsValid w (fetchOp w ro bo).1 = true) ∧
    (objsBeforeRefs (pushOp w ro bo force).1 = true ∧
      refUpdsValid w (pushOp w ro bo force).1 = true) :=
  ⟨commit_effects_ordered w mo, fetch_effects_ordered w ro bo,
    push_effects_ordered w ro bo force⟩

/- ------------------------------------------------------------------ -/
/- Object-transfer and ref-name lemmas for the push/fetch symmetry.    -/
/- ------------------------------------------------------------------ -/

/-- A successful association-list lookup exhibits a member. -/
theorem lookupS_mem {α β : Type} [DecidableEq α] :
    ∀ (l : List (α × β)) (k : α) (v : β), lookupS l k = some v → (k, v) ∈ l := by
  intro l
  induction l with
  | nil => intro k v h; simp [lookupS] at h
  | cons kv rest ih =>
      intro k v h
      by_cases heq : kv.1 = k
      · simp only [lookupS, if_pos heq] at h
        have hv : kv.2 = v := Option.some.inj h
        have hkv : (k, v) = kv := by
          obtain ⟨a, b⟩ := kv
          cases heq
          cases hv
          rfl
        rw [hkv]
        exact List.mem_cons_self _ _
      · simp only [lookupS, if_neg heq] at h
        exact List.mem_cons_of_mem _ (ih k v h)

/-- Folding object writes into a store preserves every existing object. -/
theorem foldKO_objects_preserve (l : List (String × Obj)) :
    ∀ (r : Repo) (h : String), objectsExists r h = true →
      objectsExists (l.foldl (fun acc ko => applyAct acc (Act.objW ko.2)) r) h = true := by
  induction l with
  | nil => intro r h hh; exact hh
  | cons ko rest ih =>
      intro r h hh
      rw [List.foldl_cons]
      refine ih _ h ?_
      unfold objectsExists at hh ⊢
      simp only [applyAct]
      rw [lookupS_setKV]
      by_cases hk : h = hashObj ko.2
      · simp [hk]
      · simp only [if_neg hk]
        exact hh

/-- Folding object writes into a store makes every written entry's object
present under its content hash. -/
theorem foldKO_entry_exists (l : List (String × Obj)) :
    ∀ (r : Repo) (k : String) (o : Obj), (k, o) ∈ l →
      objectsExists (l.foldl (fun acc ko => applyAct acc (Act.objW ko.2)) r)
        (hashObj o) = true := by
  induction l with
  | nil => intro r k o h; simp at h
  | cons ko rest ih =>
      intro r k o h
      rw [List.foldl_cons]
      rcases List.mem_cons.mp h with h1 | h2
      · refine foldKO_objects_preserve rest _ _ ?_
        rw [← h1]
        unfold objectsExists
        simp only [applyAct]
        rw [lookupS_setKV]
        simp
      · exact ih _ k o h2

/-- Folding object writes never touches the file area. -/
theorem foldKO_files (l : List (String × Obj)) :
    ∀ (r : Repo), (l.foldl (fun acc ko => applyAct acc (Act.objW ko.2)) r).files = r.files := by
  induction l with
  | nil => intro r; rfl
  | cons ko rest ih =>
      intro r
      rw [List.foldl_cons, ih]
      rfl

/-- Replaying local object-write events: the local repository is the fold
of the writes, the peers are untouched. -/
theorem applyEvs_objW_loc (l : List (String × Obj)) :
    ∀ (w : World),
      (applyEvs w (l.map (fun ko => (⟨Tgt.loc, Act.objW ko.2⟩ : Ev)))).loc
          = l.foldl (fun acc ko => applyAct acc (Act.objW ko.2)) w.loc ∧
      (applyEvs w (l.map (fun ko => (⟨Tgt.loc, Act.objW ko.2⟩ : Ev)))).peers = w.peers := by
  induction l with
  | nil => intro w; exact ⟨rfl, rfl⟩
  | cons ko rest ih =>
      intro w
      have hstep : applyEv w ⟨Tgt.loc, Act.objW ko.2⟩
          = { w with loc := applyAct w.loc (Act.objW ko.2) } := rfl
      have h1 := ih { w with loc := applyAct w.loc (Act.objW ko.2) }
      simp only [applyEvs] at h1 ⊢
      simp only [List.map_cons, List.foldl_cons]
      rw [hstep]
      exact h1

/-- Replaying remote object-write events at a present peer: the peer
becomes the fold of the writes, the local repository is untouched. -/
theorem applyEvs_objW_rem (url : String) (l : List (String × Obj)) :
    ∀ (w : World) (peer : Repo), lookupS w.peers url = some peer →
      lookupS (applyEvs w (l.map (fun ko => (⟨Tgt.rem url, Act.objW ko.2⟩ : Ev)))).peers url
          = some (l.foldl (fun acc ko => applyAct acc (Act.objW ko.2)) peer) ∧
      (applyEvs w (l.map (fun ko => (⟨Tgt.rem url, Act.objW ko.2⟩ : Ev)))).loc = w.loc := by
  induction l with
  | nil => intro w peer hp; exact ⟨hp, rfl⟩
  | cons ko rest ih =>
      intro w peer hp
      have hstep : applyEv w ⟨Tgt.rem url, Act.objW ko.2⟩
          = { w with peers := setKV w.peers url (applyAct peer (Act.objW ko.2)) } := by
        simp [applyEv, hp]
      have hlk : lookupS (setKV w.peers url (applyAct peer (Act.objW ko.2))) url
          = some (applyAct peer (Act.objW ko.2)) := by
        rw [lookupS_setKV]; simp
      have h1 := ih { w with peers := setKV w.peers url (applyAct peer (Act.objW ko.2)) }
        (applyAct peer (Act.objW ko.2)) hlk
      simp only [applyEvs] at h1 ⊢
      simp only [List.map_cons, List.foldl_cons]
      rw [hstep]
      exact h1

/-- A branch name of valid syntax qualifies to a valid local ref. -/
theorem isRefStr_toLocalRef {b : String} (hb : validNameL b.data = true) :
    isRefStr (toLocalRef b) = true := by
  have hdata : (toLocalRef b).data = "refs/heads/".data ++ b.data := rfl
  unfold isRefStr
  rw [hdata]
  have hpre : (("refs/heads/".data).isPrefixOf ("refs/heads/".data ++ b.data)) = true := by
    rw [List.isPrefixOf_iff_prefix]
    exact List.prefix_append _ _
  have hdrop : ("refs/heads/".data ++ b.data).drop 11 = b.data := by
    have hlen : ("refs/heads/".data).length = 11 := rfl
    rw [← hlen, List.drop_left]
  simp [hpre, hdrop, hb]

/-- Valid remote and branch names qualify to a valid remote-tracking
ref. -/
theorem isRefStr_toRemoteRef {re b : String} (hr : validNameL re.data = true)
    (hb : validNameL b.data = true) : isRefStr (toRemoteRef re b) = true := by
  have hdata : (toRemoteRef re b).data
      = "refs/remotes/".data ++ (re.data ++ '/' :: b.data) := by
    show ((("refs/remotes/" ++ re) ++ "/") ++ b).data = _
    rw [strDataAppend, strDataAppend, strDataAppend]
    simp
  unfold isRefStr
  rw [hdata]
  have hpre : (("refs/remotes/".data).isPrefixOf
      ("refs/remotes/".data ++ (re.data ++ '/' :: b.data))) = true := by
    rw [List.isPrefixOf_iff_prefix]
    exact List.prefix_append _ _
  have hdrop : ("refs/remotes/".data ++ (re.data ++ '/' :: b.data)).drop 13
      = re.data ++ '/' :: b.data := by
    have hlen : ("refs/remotes/".data).length = 13 := rfl
    rw [← hlen, List.drop_left]
  have hrp : remPartL (re.data ++ '/' :: b.data) = true := by
    have hvc : ∀ c ∈ re.data, (fun c => decide (c ≠ '/')) c = true := by
      intro c hc
      exact decide_eq_true (validChar_ne_slash ((Bool.and_eq_true _ _ |>.mp hr).2
        |> fun h => (List.all_eq_true.mp h) c hc))
    have htw : (re.data ++ '/' :: b.data).takeWhile (fun c => decide (c ≠ '/')) = re.data :=
      takeWhile_all_append _ _ _ hvc (by simp)
    have hdr : (re.data ++ '/' :: b.data).drop (re.data.length + 1) = b.data :=
      drop_all_append _ _ _
    have hlt : re.data.length < (re.data ++ '/' :: b.data).length := by
      simp
    simp only [remPartL, htw, hdr]
    simp [hr, hb, hlt]
  simp [hpre, hdrop, hrp]

/-- The characters of a Boolean prefix are members of the longer list. -/
theorem prefix_mem {p l : List Char} (h : p.isPrefixOf l = true) :
    ∀ c ∈ p, c ∈ l := by
  rw [List.isPrefixOf_iff_prefix] at h
  intro c hc
  exact h.sublist.mem hc

/-- A plain valid branch name other than HEAD is not itself a ref. -/
theorem isRefStr_plain_branch_false {b : String} (hb : validNameL b.data = true)
    (hne : b ≠ "HEAD") : isRefStr b = false := by
  have hall : ∀ c ∈ b.data, validChar c = true :=
    List.all_eq_true.mp (Bool.and_eq_true _ _ |>.mp hb).2
  have hnos : '/' ∉ b.data := fun hmem => absurd rfl (validChar_ne_slash (hall _ hmem))
  have hp1 : (("refs/heads/".data).isPrefixOf b.data) = false := by
    cases hcon : ("refs/heads/".data).isPrefixOf b.data with
    | false => rfl
    | true => exact absurd (prefix_mem hcon '/' (by decide)) hnos
  have hp2 : (("refs/remotes/".data).isPrefixOf b.data) = false := by
    cases hcon : ("refs/remotes/".data).isPrefixOf b.data with
    | false => rfl
    | true => exact absurd (prefix_mem hcon '/' (by decide)) hnos
  have hne2 : b ≠ "FETCH_HEAD" := by
    intro h; rw [h] at hb; exact absurd hb (by decide)
  have hne3 : b ≠ "MERGE_HEAD" := by
    intro h; rw [h] at hb; exact absurd hb (by decide)
  unfold isRefStr
  simp [hp1, hp2, hne, hne2, hne3]

/-- A qualified ref other than HEAD is its own terminal ref. -/
theorem terminalRef_qualified (r : Repo) {x : String} (hx : isRefStr x = true)
    (hne : x ≠ "HEAD") : terminalRef r x = x := by
  unfold terminalRef
  simp [hne, hx]

/-- An unqualified valid branch name resolves to its refs/heads/ form. -/
theorem terminalRef_plain (r : Repo) {b : String} (hb : validNameL b.data = true)
    (hne : b ≠ "HEAD") : terminalRef r b = "refs/heads/" ++ b := by
  unfold terminalRef
  simp [hne, isRefStr_plain_branch_false hb hne]

/-- refs.hash of a qualified non-HEAD non-FETCH_HEAD ref with a stored
file and no object-key collision returns the file content. -/
theorem refsHash_qualified (r : Repo) {x g : String}
    (hno : objectsExists r x = false) (hx : isRefStr x = true)
    (hne : x ≠ "HEAD") (hnf : x ≠ "FETCH_HEAD")
    (hf : filesRead r x = some g) : refsHash r x = some g := by
  simp [refsHash, hno, terminalRef_qualified r hx hne, hnf, refsExists, hx, hf]

/-- refs.hash of a plain valid branch name with a stored branch file and
no object-key collision returns the branch file content. -/
theorem refsHash_plain_branch (r : Repo) {b g : String}
    (hno : objectsExists r b = false) (hb : validNameL b.data = true)
    (hne : b ≠ "HEAD")
    (hf : filesRead r ("refs/heads/" ++ b) = some g) : refsHash r b = some g := by
  have ht := terminalRef_plain r hb hne
  have hlne : ("refs/heads/" ++ b) ≠ "FETCH_HEAD" :=
    str_ne_of_head (show ("refs/heads/" ++ b).data.head? = some 'r' from rfl)
      (show ("FETCH_HEAD").data.head? = some 'F' from rfl) (by decide)
  have hlref : isRefStr ("refs/heads/" ++ b) = true := isRefStr_toLocalRef hb
  simp [refsHash, hno, ht, hlne, refsExists, hlref, hf]

/-- Conversely, a plain-branch refs.hash answer without object-key
collision came from the branch file. -/
theorem refsHash_plain_branch_inv (r : Repo) {b g : String}
    (hno : objectsExists r b = false) (hb : validNameL b.data = true)
    (hne : b ≠ "HEAD") (hg : refsHash r b = some g) :
    filesRead r ("refs/heads/" ++ b) = some g := by
  have ht := terminalRef_plain r hb hne
  have hlne : ("refs/heads/" ++ b) ≠ "FETCH_HEAD" :=
    str_ne_of_head (show ("refs/heads/" ++ b).data.head? = some 'r' from rfl)
      (show ("FETCH_HEAD").data.head? = some 'F' from rfl) (by decide)
  have hlref : isRefStr ("refs/heads/" ++ b) = true := isRefStr_toLocalRef hb
  cases hff : filesRead r ("refs/heads/" ++ b) with
  | none => simp [refsHash, hno, ht, hlne, refsExists, hlref, hff] at hg
  | some v =>
      simp [refsHash, hno, ht, hlne, refsExists, hlref, hff] at hg
      rw [hg]

/-- Local and remote-tracking refs are distinct names. -/
theorem toLocalRef_ne_toRemoteRef (b re b' : String) :
    toLocalRef b ≠ toRemoteRef re b' := by
  intro h
  have hd : (toLocalRef b).data = (toRemoteRef re b').data := congrArg String.data h
  have h1 : (toLocalRef b).data
      = 'r' :: 'e' :: 'f' :: 's' :: '/' :: 'h' :: ("eads/".data ++ b.data) := rfl
  have h2 : (toRemoteRef re b').data
      = 'r' :: 'e' :: 'f' :: 's' :: '/' :: 'r' ::
          ("emotes/".data ++ (re.data ++ ("/".data ++ b'.data))) := by
    show ((("refs/remotes/" ++ re) ++ "/") ++ b').data = _
    rw [strDataAppend, strDataAppend, strDataAppend]
    simp
  rw [h1, h2] at hd
  simp at hd

/-- update_ref's successful report is always the empty string. -/
theorem update_refOp_ok_empty {w : World} {t : Tgt} {a b s : String}
    (h : (update_refOp w t a b).2 = Except.ok s) : s = "" := by
  cases hh : refsHash (repoAt w t) b with
  | none => simp [update_refOp, hh, objectsExistsO] at h
  | some hsh =>
      by_cases ho : objectsExists (repoAt w t) hsh = true
      · by_cases ha : isRefStr a = true
        · by_cases hty : objTypeOfRead (repoAt w t) hsh = some "commit"
          · simp [update_refOp, hh, objectsExistsO, ho, ha, hty] at h
            exact h.symm
          · simp [update_refOp, hh, objectsExistsO, ho, ha, hty] at h
        · simp [update_refOp, hh, objectsExistsO, ho, ha] at h
      · simp [update_refOp, hh, objectsExistsO, ho] at h

/-- A successful update_ref resolved its target hash against its own
state, found the object there, and wrote exactly that hash to the terminal
ref. -/
theorem update_refOp_ok_shape {w : World} {t : Tgt} {a b s : String}
    (h : (update_refOp w t a b).2 = Except.ok s) :
    ∃ hsh, refsHash (repoAt w t) b = some hsh ∧
      objectsExists (repoAt w t) hsh = true ∧ isRefStr a = true ∧
      (update_refOp w t a b).1 = refsWriteEv t (terminalRef (repoAt w t) a) hsh := by
  cases hh : refsHash (repoAt w t) b with
  | none => simp [update_refOp, hh, objectsExistsO] at h
  | some hsh =>
      by_cases ho : objectsExists (repoAt w t) hsh = true
      · by_cases ha : isRefStr a = true
        · by_cases hty : objTypeOfRead (repoAt w t) hsh = some "commit"
          · exact ⟨hsh, rfl, ho, ha,
              by simp [update_refOp, hh, objectsExistsO, ho, ha, hty]⟩
          · simp [update_refOp, hh, objectsExistsO, ho, ha, hty] at h
        · simp [update_refOp, hh, objectsExistsO, ho, ha] at h
      · simp [update_refOp, hh, objectsExistsO, ho] at h

/-- A successful fetch resolved the branch on the peer, ran a successful
remote-tracking-ref update against the state left by the object copy, and
its trace is the copy, that update and the FETCH_HEAD record write. -/
theorem fetchOp_ok_shape {w : World} {remote branch url : String} {peer : Repo}
    {tr : List Ev} {msg : String}
    (hu : lookupS w.loc.remotes remote = some url)
    (hp : lookupS w.peers url = some peer)
    (hok : fetchOp w (some remote) (some branch) = (tr, Except.ok msg)) :
    ∃ nh, refsHash peer branch = some nh ∧
      (update_refOp (applyEvs w (copyFromPeerEvs peer)) Tgt.loc
        (toRemoteRef remote branch) nh).2 = Except.ok "" ∧
      tr = (copyFromPeerEvs peer ++
          (update_refOp (applyEvs w (copyFromPeerEvs peer)) Tgt.loc
            (toRemoteRef remote branch) nh).1) ++
        refsWriteEv Tgt.loc "FETCH_HEAD" (nh ++ " branch " ++ branch ++ " of " ++ url) := by
  simp only [fetchOp, hu, hp] at hok
  cases hnh : refsHash peer branch with
  | none => simp only [hnh] at hok; simp at hok
  | some nh =>
      simp only [hnh] at hok
      cases hu2 : (update_refOp (applyEvs w (copyFromPeerEvs peer)) Tgt.loc
          (toRemoteRef remote branch) nh).2 with
      | error e => simp only [hu2] at hok; simp at hok
      | ok u =>
          have hu0 : u = "" := update_refOp_ok_empty hu2
          simp only [hu2] at hok
          simp only [Prod.mk.injEq] at hok
          refine ⟨nh, rfl, ?_, hok.1.symm⟩
          rw [hu2, hu0]

/-- A successful push (other than "Already up-to-date") resolved the local
branch, ran a successful peer branch update against the state left by the
object copy, then a successful local remote-tracking-ref update, and its
trace is the copy followed by the two updates. -/
theorem pushOp_ok_shape {w : World} {remote branch url : String} {peer : Repo}
    {force : Bool} {tr : List Ev} {msg : String}
    (hu : lookupS w.loc.remotes remote = some url)
    (hp : lookupS w.peers url = some peer)
    (hok : pushOp w (some remote) (some branch) force = (tr, Except.ok msg))
    (hmsg : msg ≠ "Already up-to-date") :
    ∃ g, refsHash w.loc branch = some g ∧
      (update_refOp (applyEvs w (copyToPeerEvs w url)) (Tgt.rem url)
        (toLocalRef branch) g).2 = Except.ok "" ∧
      (update_refOp (applyEvs w (copyToPeerEvs w url ++
          (update_refOp (applyEvs w (copyToPeerEvs w url)) (Tgt.rem url)
            (toLocalRef branch) g).1)) Tgt.loc (toRemoteRef remote branch) g).2
        = Except.ok "" ∧
      tr = (copyToPeerEvs w url ++
          (update_refOp (applyEvs w (copyToPeerEvs w url)) (Tgt.rem url)
            (toLocalRef branch) g).1) ++
        (update_refOp (applyEvs w (copyToPeerEvs w url ++
          (update_refOp (applyEvs w (copyToPeerEvs w url)) (Tgt.rem url)
            (toLocalRef branch) g).1)) Tgt.loc (toRemoteRef remote branch) g).1 := by
  by_cases hco : isCheckedOut peer branch = true
  · simp [pushOp, hu, hp, hco] at hok
  · by_cases hutd : isUpToDate w.loc.objects (refsHash peer branch)
        (refsHash w.loc branch) = true
    · simp [pushOp, hu, hp, hco, hutd] at hok
      exact absurd hok.2.symm hmsg
    · by_cases hff : (!force && !canFastForward w.loc.objects (refsHash peer branch)
          (refsHash w.loc branch)) = true
      · simp [pushOp, hu, hp, hco, hutd, hff] at hok
      · cases hgv : refsHash w.loc branch with
        | none =>
            rw [hgv] at hutd
            simp [isUpToDate] at hutd
        | some g =>
            rw [hgv] at hutd hff
            cases h1 : (update_refOp (applyEvs w (copyToPeerEvs w url)) (Tgt.rem url)
                (toLocalRef branch) g).2 with
            | error e =>
                simp [pushOp, hu, hp, hco, hutd, hff, hgv, h1] at hok
            | ok u =>
                have hu0 : u = "" := update_refOp_ok_empty h1
                cases h2 : (update_refOp (applyEvs w (copyToPeerEvs w url ++
                    (update_refOp (applyEvs w (copyToPeerEvs w url)) (Tgt.rem url)
                      (toLocalRef branch) g).1)) Tgt.loc
                    (toRemoteRef remote branch) g).2 with
                | error e =>
                    simp [pushOp, hu, hp, hco, hutd, hff, hgv, h1, h2] at hok
                | ok u2 =>
                    have hu20 : u2 = "" := update_refOp_ok_empty h2
                    simp [pushOp, hu, hp, hco, hutd, hff, hgv, h1, h2] at hok
                    refine ⟨g, rfl, by rw [h1, hu0], by rw [h2, hu20], ?_⟩
                    rw [List.append_assoc]
                    exact hok.1.symm

/-- The local repository of an effect world. -/
theorem repoAt_loc (w : World) : repoAt w Tgt.loc = w.loc := rfl

/-- Replaying a single local event. -/
theorem applyEvs_single_loc (w : World) (a : Act) :
    applyEvs w [⟨Tgt.loc, a⟩] = { w with loc := applyAct w.loc a } := rfl

/-- Replaying a single event at a present peer. -/
theorem applyEvs_single_rem (w : World) (url : String) (a : Act) (peer : Repo)
    (hp : lookupS w.peers url = some peer) :
    applyEvs w [⟨Tgt.rem url, a⟩]
      = { w with peers := setKV w.peers url (applyAct peer a) } := by
  show applyEv w ⟨Tgt.rem url, a⟩ = _
  simp [applyEv, hp]

/-- Ref-write events carry the requested target. -/
theorem refsWriteEv_tgt (t : Tgt) (n c : String) : ∀ e ∈ refsWriteEv t n c, e.tgt = t := by
  intro e he
  unfold refsWriteEv at he
  split at he
  · simp at he; subst he; rfl
  · simp at he

/-- Projection: updating the local repo. -/
theorem loc_update_loc (w : World) (r : Repo) : ({ w with loc := r } : World).loc = r := rfl

/-- Projection: peers after updating the local repo. -/
theorem loc_update_peers (w : World) (r : Repo) :
    ({ w with loc := r } : World).peers = w.peers := rfl

/-- Reading a file after a file write. -/
theorem filesRead_fileW (r : Repo) (n c m : String) :
    filesRead (applyAct r (Act.fileW n c)) m = lookupS (setKV r.files n c) m := rfl

/-- The file table after a file write. -/
theorem files_fileW (r : Repo) (n c : String) :
    (applyAct r (Act.fileW n c)).files = setKV r.files n c := rfl

/-- Push symmetry: after a successful, effective push, the peer's branch
ref, the local remote-tracking ref and the (unchanged) local branch all
hold the same hash. -/
theorem push_symmetry (w : World) (remote branch url g : String) (peer : Repo)
    (og : Obj) (force : Bool) (tr : List Ev) (msg : String)
    (hu : lookupS w.loc.remotes remote = some url)
    (hp : lookupS w.peers url = some peer)
    (hok : pushOp w (some remote) (some branch) force = (tr, Except.ok msg))
    (hmsg : msg ≠ "Already up-to-date")
    (hb : validNameL branch.data = true) (hbh : branch ≠ "HEAD")
    (hr : validNameL remote.data = true)
    (hg : refsHash w.loc branch = some g)
    (hgo : lookupS w.loc.objects g = some og) (hgh : hashObj og = g)
    (hnb1 : objectsExists (repoAt (applyEvs w tr) (Tgt.rem url)) branch = false)
    (hnb2 : objectsExists (applyEvs w tr).loc branch = false)
    (hnr : objectsExists (applyEvs w tr).loc (toRemoteRef remote branch) = false) :
    refsHash (repoAt (applyEvs w tr) (Tgt.rem url)) branch = some g ∧
    refsHash (applyEvs w tr).loc (toRemoteRef remote branch) = some g ∧
    refsHash (applyEvs w tr).loc branch = some g := by
  obtain ⟨g', hg', hok1, hok2, htr⟩ := pushOp_ok_shape hu hp hok hmsg
  have hgg : g' = g := Option.some.inj (hg'.symm.trans hg)
  rw [hgg] at hok1 hok2 htr
  have hcopy : copyToPeerEvs w url
      = w.loc.objects.map (fun ko => (⟨Tgt.rem url, Act.objW ko.2⟩ : Ev)) := rfl
  have hw1 := applyEvs_objW_rem url w.loc.objects w peer hp
  have hw1p : lookupS (applyEvs w (copyToPeerEvs w url)).peers url
      = some (w.loc.objects.foldl (fun acc ko => applyAct acc (Act.objW ko.2)) peer) := by
    rw [hcopy]; exact hw1.1
  have hw1l : (applyEvs w (copyToPeerEvs w url)).loc = w.loc := by
    rw [hcopy]; exact hw1.2
  have hrepo1 : repoAt (applyEvs w (copyToPeerEvs w url)) (Tgt.rem url)
      = w.loc.objects.foldl (fun acc ko => applyAct acc (Act.objW ko.2)) peer := by
    simp [repoAt, hw1p]
  have hmem : (g, og) ∈ w.loc.objects := lookupS_mem _ _ _ hgo
  have hex1 : objectsExists
      (w.loc.objects.foldl (fun acc ko => applyAct acc (Act.objW ko.2)) peer) g = true := by
    have hfe := foldKO_entry_exists w.loc.objects peer g og hmem
    rwa [hgh] at hfe
  obtain ⟨hsh1, hsh1e, hsh1o, hlv', htr1⟩ := update_refOp_ok_shape hok1
  rw [hrepo1] at hsh1e htr1
  have hsh1g : hsh1 = g := by
    have hfh : refsHash
        (w.loc.objects.foldl (fun acc ko => applyAct acc (Act.objW ko.2)) peer) g
        = some g := by simp [refsHash, hex1]
    exact (Option.some.inj (hfh.symm.trans hsh1e)).symm
  rw [hsh1g] at htr1
  have hlv : isRefStr (toLocalRef branch) = true := isRefStr_toLocalRef hb
  have hlneH : toLocalRef branch ≠ "HEAD" :=
    str_ne_of_head (show (toLocalRef branch).data.head? = some 'r' from rfl)
      (show ("HEAD").data.head? = some 'H' from rfl) (by decide)
  have htr1' : (update_refOp (applyEvs w (copyToPeerEvs w url)) (Tgt.rem url)
      (toLocalRef branch) g).1 = [⟨Tgt.rem url, Act.fileW (toLocalRef branch) g⟩] := by
    rw [htr1, terminalRef_qualified _ hlv hlneH]
    simp [refsWriteEv, hlv]
  have hw2l : (applyEvs w (copyToPeerEvs w url ++
      (update_refOp (applyEvs w (copyToPeerEvs w url)) (Tgt.rem url)
        (toLocalRef branch) g).1)).loc = w.loc := by
    rw [applyEvs_append, htr1']
    have hone : (applyEvs (applyEvs w (copyToPeerEvs w url))
        [⟨Tgt.rem url, Act.fileW (toLocalRef branch) g⟩]).loc
        = (applyEvs w (copyToPeerEvs w url)).loc :=
      applyEvs_rem_loc _ _ (by
        intro e he
        simp at he
        subst he
        exact fun hcon => Tgt.noConfusion hcon)
    rw [hone, hw1l]
  have hw2p : lookupS (applyEvs w (copyToPeerEvs w url ++
      (update_refOp (applyEvs w (copyToPeerEvs w url)) (Tgt.rem url)
        (toLocalRef branch) g).1)).peers url
      = some (applyAct
          (w.loc.objects.foldl (fun acc ko => applyAct acc (Act.objW ko.2)) peer)
          (Act.fileW (toLocalRef branch) g)) := by
    rw [applyEvs_append, htr1', applyEvs_single_rem _ url _ _ hw1p]
    simp [lookupS_setKV]
  obtain ⟨hsh2, hsh2e, hsh2o, hrv', htr2⟩ := update_refOp_ok_shape hok2
  rw [repoAt_loc, hw2l] at hsh2e htr2
  have hsh2g : hsh2 = g := by
    have hwg : objectsExists w.loc g = true := by simp [objectsExists, hgo]
    have hfh : refsHash w.loc g = some g := by simp [refsHash, hwg]
    exact (Option.some.inj (hfh.symm.trans hsh2e)).symm
  rw [hsh2g] at htr2
  have hrv : isRefStr (toRemoteRef remote branch) = true := isRefStr_toRemoteRef hr hb
  have hrneH : toRemoteRef remote branch ≠ "HEAD" :=
    str_ne_of_head (show (toRemoteRef remote branch).data.head? = some 'r' from rfl)
      (show ("HEAD").data.head? = some 'H' from rfl) (by decide)
  have hrneF : toRemoteRef remote branch ≠ "FETCH_HEAD" :=
    str_ne_of_head (show (toRemoteRef remote branch).data.head? = some 'r' from rfl)
      (show ("FETCH_HEAD").data.head? = some 'F' from rfl) (by decide)
  have htr2' : (update_refOp (applyEvs w (copyToPeerEvs w url ++
      (update_refOp (applyEvs w (copyToPeerEvs w url)) (Tgt.rem url)
        (toLocalRef branch) g).1)) Tgt.loc (toRemoteRef remote branch) g).1
      = [⟨Tgt.loc, Act.fileW (toRemoteRef remote branch) g⟩] := by
    rw [htr2, terminalRef_qualified _ hrv hrneH]
    simp [refsWriteEv, hrv]
  have hfin_loc : (applyEvs w tr).loc
      = applyAct w.loc (Act.fileW (toRemoteRef remote branch) g) := by
    rw [htr, applyEvs_append, htr2']
    simp only [applyEvs_single_loc, loc_update_loc]
    rw [hw2l]
  have hfin_peers : lookupS (applyEvs w tr).peers url
      = some (applyAct
          (w.loc.objects.foldl (fun acc ko => applyAct acc (Act.objW ko.2)) peer)
          (Act.fileW (toLocalRef branch) g)) := by
    rw [htr, applyEvs_append, htr2']
    simp only [applyEvs_single_loc, loc_update_peers]
    exact hw2p
  have hrepoF : repoAt (applyEvs w tr) (Tgt.rem url)
      = applyAct (w.loc.objects.foldl (fun acc ko => applyAct acc (Act.objW ko.2)) peer)
          (Act.fileW (toLocalRef branch) g) := by
    simp [repoAt, hfin_peers]
  refine ⟨?_, ?_, ?_⟩
  · rw [hrepoF] at hnb1 ⊢
    refine refsHash_plain_branch _ hnb1 hb hbh ?_
    rw [filesRead_fileW, lookupS_setKV,
      if_pos (show ("refs/heads/" ++ branch) = toLocalRef branch from rfl)]
  · rw [hfin_loc] at hnr ⊢
    refine refsHash_qualified _ hnr hrv hrneH hrneF ?_
    rw [filesRead_fileW, lookupS_setKV, if_pos rfl]
  · rw [hfin_loc] at hnb2 ⊢
    have hploc0 : objectsExists w.loc branch = false := hnb2
    have hfl : filesRead w.loc ("refs/heads/" ++ branch) = some g :=
      refsHash_plain_branch_inv w.loc hploc0 hb hbh hg
    refine refsHash_plain_branch _ hnb2 hb hbh ?_
    have hne' : ¬("refs/heads/" ++ branch = toRemoteRef remote branch) :=
      toLocalRef_ne_toRemoteRef branch remote branch
    rw [filesRead_fileW, lookupS_setKV, if_neg hne']
    exact hfl

/-- Fetch symmetry: after a successful fetch, the local remote-tracking
ref holds exactly the peer's branch hash, and the peer is unchanged. -/
theorem fetch_symmetry (w : World) (remote branch url nh : String) (peer : Repo)
    (ob : Obj) (tr : List Ev) (msg : String)
    (hu : lookupS w.loc.remotes remote = some url)
    (hp : lookupS w.peers url = some peer)
    (hok : fetchOp w (some remote) (some branch) = (tr, Except.ok msg))
    (hb : validNameL branch.data = true) (hr : validNameL remote.data = true)
    (hnh0 : refsHash peer branch = some nh)
    (hobj : lookupS peer.objects nh = some ob) (hoh : hashObj ob = nh)
    (hx1 : objectsExists (applyEvs w tr).loc (toRemoteRef remote branch) = false) :
    refsHash (repoAt (applyEvs w tr) (Tgt.rem url)) branch = some nh ∧
    refsHash (applyEvs w tr).loc (toRemoteRef remote branch) = some nh := by
  obtain ⟨nh', hnh', hok1, htr⟩ := fetchOp_ok_shape hu hp hok
  have hnn : nh' = nh := Option.some.inj (hnh'.symm.trans hnh0)
  rw [hnn] at hok1 htr
  have hcopy : copyFromPeerEvs peer
      = peer.objects.map (fun ko => (⟨Tgt.loc, Act.objW ko.2⟩ : Ev)) := rfl
  have hw1 := applyEvs_objW_loc peer.objects w
  have hw1l : (applyEvs w (copyFromPeerEvs peer)).loc
      = peer.objects.foldl (fun acc ko => applyAct acc (Act.objW ko.2)) w.loc := by
    rw [hcopy]; exact hw1.1
  have hex1 : objectsExists
      (peer.objects.foldl (fun acc ko => applyAct acc (Act.objW ko.2)) w.loc) nh = true := by
    have hfe := foldKO_entry_exists peer.objects w.loc nh ob (lookupS_mem _ _ _ hobj)
    rwa [hoh] at hfe
  obtain ⟨hsh, hshe, hsho, hrv', htr1⟩ := update_refOp_ok_shape hok1
  rw [repoAt_loc, hw1l] at hshe htr1
  have hshn : hsh = nh := by
    have hfh : refsHash
        (peer.objects.foldl (fun acc ko => applyAct acc (Act.objW ko.2)) w.loc) nh
        = some nh := by simp [refsHash, hex1]
    exact (Option.some.inj (hfh.symm.trans hshe)).symm
  rw [hshn] at htr1
  have hrv : isRefStr (toRemoteRef remote branch) = true := isRefStr_toRemoteRef hr hb
  have hrneH : toRemoteRef remote branch ≠ "HEAD" :=
    str_ne_of_head (show (toRemoteRef remote branch).data.head? = some 'r' from rfl)
      (show ("HEAD").data.head? = some 'H' from rfl) (by decide)
  have hrneF : toRemoteRef remote branch ≠ "FETCH_HEAD" :=
    str_ne_of_head (show (toRemoteRef remote branch).data.head? = some 'r' from rfl)
      (show ("FETCH_HEAD").data.head? = some 'F' from rfl) (by decide)
  have htr1' : (update_refOp (applyEvs w (copyFromPeerEvs peer)) Tgt.loc
      (toRemoteRef remote branch) nh).1
      = [⟨Tgt.loc, Act.fileW (toRemoteRef remote branch) nh⟩] := by
    rw [htr1, terminalRef_qualified _ hrv hrneH]
    simp [refsWriteEv, hrv]
  have hfrt : isRefStr "FETCH_HEAD" = true := by decide
  have htrF : refsWriteEv Tgt.loc "FETCH_HEAD" (nh ++ " branch " ++ branch ++ " of " ++ url)
      = [⟨Tgt.loc, Act.fileW "FETCH_HEAD" (nh ++ " branch " ++ branch ++ " of " ++ url)⟩] := by
    simp [refsWriteEv, hfrt]
  have hall : ∀ e ∈ tr, e.tgt = Tgt.loc := by
    rw [htr]
    intro e he
    rcases List.mem_append.mp he with h1 | h2
    · rcases List.mem_append.mp h1 with h3 | h4
      · rw [hcopy] at h3
        simp only [List.mem_map] at h3
        obtain ⟨ko, _, rfl⟩ := h3
        rfl
      · rw [htr1'] at h4
        simp at h4; subst h4; rfl
    · exact refsWriteEv_tgt _ _ _ e h2
  have hpeers : (applyEvs w tr).peers = w.peers := applyEvs_loc_peers tr w hall
  have hrepoF : repoAt (applyEvs w tr) (Tgt.rem url) = peer := by
    simp [repoAt, hpeers, hp]
  constructor
  · rw [hrepoF]; exact hnh0
  · have hfin_loc : (applyEvs w tr).loc
        = applyAct (applyAct
            (peer.objects.foldl (fun acc ko => applyAct acc (Act.objW ko.2)) w.loc)
            (Act.fileW (toRemoteRef remote branch) nh))
          (Act.fileW "FETCH_HEAD" (nh ++ " branch " ++ branch ++ " of " ++ url)) := by
      rw [htr, applyEvs_append, applyEvs_append, htr1', htrF]
      simp only [applyEvs_single_loc, loc_update_loc]
      rw [hw1l]
    rw [hfin_loc] at hx1 ⊢
    refine refsHash_qualified _ hx1 hrv hrneH hrneF ?_
    rw [filesRead_fileW, files_fileW, lookupS_setKV, if_neg hrneF, lookupS_setKV, if_pos rfl]

/-- Claim C1 (push/fetch symmetry): after a successful push(remote, b)
that is not "Already up-to-date", the peer's branch ref and the local
remote-tracking ref refs/remotes/remote/b both resolve to the same hash as
the local branch b (which still holds its pre-push hash g); conversely
after a successful fetch(remote, b), the local remote-tracking ref
resolves to the same hash as the peer's (unchanged) branch b.  Stated for
syntactically valid remote and branch names, a content-addressed store
entry behind the transferred hash, and stores in which the ref names do
not collide with object keys. -/
theorem claim_C1 :
    (∀ (w : World) (remote branch url g : String) (peer : Repo) (og : Obj)
        (force : Bool) (tr : List Ev) (msg : String),
      lookupS w.loc.remotes remote = some url →
      lookupS w.peers url = some peer →
      pushOp w (some remote) (some branch) force = (tr, Except.ok msg) →
      msg ≠ "Already up-to-date" →
      validNameL branch.data = true → branch ≠ "HEAD" →
      validNameL remote.data = true →
      refsHash w.loc branch = some g →
      lookupS w.loc.objects g = some og → hashObj og = g →
      objectsExists (repoAt (applyEvs w tr) (Tgt.rem url)) branch = false →
      objectsExists (applyEvs w tr).loc branch = false →
      objectsExists (applyEvs w tr).loc (toRemoteRef remote branch) = false →
      (refsHash (repoAt (applyEvs w tr) (Tgt.rem url)) branch
          = refsHash (applyEvs w tr).loc branch ∧
       refsHash (applyEvs w tr).loc (toRemoteRef remote branch)
          = refsHash (applyEvs w tr).loc branch ∧
       refsHash (applyEvs w tr).loc branch = some g)) ∧
    (∀ (w : World) (remote branch url nh : String) (peer : Repo) (ob : Obj)
        (tr : List Ev) (msg : String),
      lookupS w.loc.remotes remote = some url →
      lookupS w.peers url = some peer →
      fetchOp w (some remote) (some branch) = (tr, Except.ok msg) →
      validNameL branch.data = true → validNameL remote.data = true →
      refsHash peer branch = some nh →
      lookupS peer.objects nh = some ob → hashObj ob = nh →
      objectsExists (applyEvs w tr).loc (toRemoteRef remote branch) = false →
      refsHash (applyEvs w tr).loc (toRemoteRef remote branch)
        = refsHash (repoAt (applyEvs w tr) (Tgt.rem url)) branch) := by
  constructor
  · intro w remote branch url g peer og force tr msg hu hp hok hmsg hb hbh hr hg
      hgo hgh hnb1 hnb2 hnr
    obtain ⟨d1, d2, d3⟩ := push_symmetry w remote branch url g peer og force tr msg
      hu hp hok hmsg hb hbh hr hg hgo hgh hnb1 hnb2 hnr
    exact ⟨d1.trans d3.symm, d2.trans d3.symm, d3⟩
  · intro w remote branch url nh peer ob tr msg hu hp hok hb hr hnh0 hobj hoh hx1
    obtain ⟨d1, d2⟩ := fetch_symmetry w remote branch url nh peer ob tr msg
      hu hp hok hb hr hnh0 hobj hoh hx1
    exact d2.trans d1.symm

/-- Witness for C1: pushing master to the empty peer makes the peer
branch, the remote-tracking ref and the local branch agree on the commit
hash, and fetching feat records the peer's feat hash in the
remote-tracking ref. -/
theorem claim_C1_witness :
    (refsHash (repoAt (applyEvs W0 (pushOp W0 (some "origin") (some "master") false).1)
        (Tgt.rem "./peer")) "master"
      = refsHash (applyEvs W0 (pushOp W0 (some "origin") (some "master") false).1).loc
          "master" ∧
     refsHash (applyEvs W0 (pushOp W0 (some "origin") (some "master") false).1).loc
        (toRemoteRef "origin" "master")
      = refsHash (applyEvs W0 (pushOp W0 (some "origin") (some "master") false).1).loc
          "master" ∧
     refsHash (applyEvs W0 (pushOp W0 (some "origin") (some "master") false).1).loc
        "master" = some ch) ∧
    refsHash (applyEvs WF (fetchOp WF (some "origin") (some "feat")).1).loc
        (toRemoteRef "origin" "feat")
      = refsHash (repoAt (applyEvs WF (fetchOp WF (some "origin") (some "feat")).1)
          (Tgt.rem "./p2")) "feat" :=
  ⟨claim_C1.1 W0 "origin" "master" "./peer" ch peerR c1 false
      (pushOp W0 (some "origin") (some "master") false).1
      "To ./peer\nCount 3\nmaster -> master\n"
      (by decide) (by decide) (by decide) (by decide) (by decide) (by decide)
      (by decide) (by decide) (by decide) (by decide) (by decide) (by decide)
      (by decide),
   claim_C1.2 WF "origin" "feat" "./p2" ch2 peer2 c2f
      (fetchOp WF (some "origin") (some "feat")).1
      "From ./p2\nCount 4\nfeat -> origin/feat\n"
      (by decide) (by decide) (by decide) (by decide) (by decide) (by decide)
      (by decide) (by decide) (by decide)⟩

end VersionVC
